import Mathlib

/-!
Verification of the wordle-solver program: a shallow embedding of its score
codec (score.rs), guess evaluator (eval.rs), single-board solver (solver.rs),
multi-board solver (bin/multisolver.rs) and adversarial solver
(bin/absurdle-solver.rs), together with proofs about the embedded code.

Words are modelled as lists of letter codes (0 = a, ..., 25 = z); strings of
feedback are modelled as lists of characters.  Machine integers are modelled
as Nat.  The wrapping u8 counter array inside compute_score never wraps for
five-letter words (it receives at most five increments and every decrement is
guarded, either by a matching increment or by a positivity test), so plain
Nat arithmetic with truncated subtraction is faithful on the domain of
five-letter lowercase words.  The per-letter counter array indexed by
letter - a is modelled as a function from letter codes to counts.
-/

namespace WordleSolver

/-- The three per-letter feedback symbols of score.rs (Absent = 0,
Present = 1, Correct = 2). -/
inductive LetterScore where
  | Absent
  | Present
  | Correct
deriving DecidableEq, Repr

/-- The numeric value of a letter score, as in the repr(u8) enum. -/
def LetterScore.toNat : LetterScore → Nat
  | .Absent => 0
  | .Present => 1
  | .Correct => 2

/-- A five-letter word: a list of letter codes. -/
abbrev Word := List Nat

/-- Decrement the counter of letter c (wrapping never occurs on the valid
domain, see the header note; truncated Nat subtraction). -/
def decr (cnt : Nat → Nat) (c : Nat) : Nat → Nat :=
  fun x => if x = c then cnt c - 1 else cnt x

/-- The first loop of compute_score: count how many of each letter there is
in the solution. -/
def countsOf (solution : Word) : Nat → Nat :=
  fun c => solution.count c

/-- The second loop of compute_score: walk the zipped guess/solution letters,
mark Correct where they agree and reserve (decrement) that letter count. -/
def pass1 : List (Nat × Nat) → (Nat → Nat) → List LetterScore × (Nat → Nat)
  | [], cnt => ([], cnt)
  | p :: rest, cnt =>
    if p.1 = p.2 then
      let r := pass1 rest (decr cnt p.1)
      (LetterScore.Correct :: r.1, r.2)
    else
      let r := pass1 rest cnt
      (LetterScore.Absent :: r.1, r.2)

/-- The third loop of compute_score: positions not already Correct become
Present while the guessed letter still has remaining count, else Absent.
The input pairs each pass-one mark with the guessed letter at that
position. -/
def pass2 : List (LetterScore × Nat) → (Nat → Nat) → List LetterScore
  | [], _ => []
  | p :: rest, cnt =>
    if p.1 ≠ LetterScore.Correct ∧ 0 < cnt p.2 then
      LetterScore.Present :: pass2 rest (decr cnt p.2)
    else
      p.1 :: pass2 rest cnt

/-- The per-position feedback list computed by compute_score, before packing
into a base-3 number. -/
def scoreList (guess solution : Word) : List LetterScore :=
  let r := pass1 (guess.zip solution) (countsOf solution)
  pass2 (r.1.zip guess) r.2

/-- pack_score of score.rs: fold the five letter scores into one base-3
number (leftmost letter is the highest-order digit). -/
def pack_score (score : List LetterScore) : Nat :=
  score.foldl (fun num l => num * 3 + l.toNat) 0

/-- NUM_POSSIBLE_SCORES = 3^5 = 243. -/
def NUM_POSSIBLE_SCORES : Nat := 243

/-- A packed DetailScore value (the u8 payload of the DetailScore struct;
always below 243). -/
abbrev DetailScore := Nat

/-- compute_score of score.rs. -/
def compute_score (guess solution : Word) : DetailScore :=
  pack_score (scoreList guess solution)

/-- DetailScore::is_win: the score is 3^5 - 1, i.e. every position is
Correct. -/
def is_win (score : DetailScore) : Bool :=
  score == NUM_POSSIBLE_SCORES - 1

/-- DetailScore::all_possible (also all_possible_scores): the ascending
enumeration of all 243 packed score values. -/
def all_possible : List DetailScore :=
  List.range NUM_POSSIBLE_SCORES

/-- The LETTERS table of score.rs. -/
def LETTERS : List Char := ['a', 'p', 'c']

/-- The loop body of the Display implementation for DetailScore: peel off
base-3 digits from the highest-order divisor 81 downwards, k digits in
total. -/
def displayAux : Nat → Nat → Nat → List Char
  | 0, _, _ => []
  | k + 1, num, divisor =>
    let quotient := num / divisor
    LETTERS.getD quotient ' ' :: displayAux k (num - quotient * divisor) (divisor / 3)

/-- The Display implementation for DetailScore: five characters from
LETTERS. -/
def displayScore (score : DetailScore) : List Char :=
  displayAux 5 score 81

/-- The per-character match inside parse_score_string. -/
def parseLetter (c : Char) : Option LetterScore :=
  if c = 'a' then some LetterScore.Absent
  else if c = 'c' then some LetterScore.Correct
  else if c = 'p' then some LetterScore.Present
  else none

/-- The character loop of parse_score_string: all characters must parse,
position order is preserved. -/
def parseLetters : List Char → Option (List LetterScore)
  | [] => some []
  | c :: rest =>
    match parseLetter c, parseLetters rest with
    | some l, some ls => some (l :: ls)
    | _, _ => none

/-- parse_score_string of score.rs: length must be exactly 5 and every
character must be one of a, c, p. -/
def parse_score_string (s : List Char) : Option DetailScore :=
  if s.length ≠ 5 then none
  else (parseLetters s).map pack_score

/-- DetailScore::absurdle_entropy_lost: pack (count of Correct, count of
Present, count of Absent, the five per-position ranks) into one integer,
low bits holding the per-position ranks with the rightmost letter at the
lowest-order two bits. -/
def absurdle_entropy_lost (score : DetailScore) : Nat :=
  let d0 := score % 3
  let n1 := score / 3
  let d1 := n1 % 3
  let n2 := n1 / 3
  let d2 := n2 % 3
  let n3 := n2 / 3
  let d3 := n3 % 3
  let n4 := n3 / 3
  let d4 := n4 % 3
  let result := d0 + d1 * 4 + d2 * 16 + d3 * 64 + d4 * 256
  let c2 := (if d0 = 2 then 1 else 0) + (if d1 = 2 then 1 else 0)
    + (if d2 = 2 then 1 else 0) + (if d3 = 2 then 1 else 0) + (if d4 = 2 then 1 else 0)
  let c1 := (if d0 = 1 then 1 else 0) + (if d1 = 1 then 1 else 0)
    + (if d2 = 1 then 1 else 0) + (if d3 = 1 then 1 else 0) + (if d4 = 1 then 1 else 0)
  let c0 := (if d0 = 0 then 1 else 0) + (if d1 = 0 then 1 else 0)
    + (if d2 = 0 then 1 else 0) + (if d3 = 0 then 1 else 0) + (if d4 = 0 then 1 else 0)
  result + c2 * 65536 + c1 * 8192 + c0 * 1024

/-- The number of positions of the computed feedback whose guessed letter is
L and whose mark is Correct or Present. -/
def cpCount (guess solution : Word) (L : Nat) : Nat :=
  ((scoreList guess solution).zip guess).countP fun p =>
    decide ((p.1 = LetterScore.Correct ∨ p.1 = LetterScore.Present) ∧ p.2 = L)

/-- The number of positions of the computed feedback whose guessed letter is
L and whose mark is Absent. -/
def absentCount (guess solution : Word) (L : Nat) : Nat :=
  ((scoreList guess solution).zip guess).countP fun p =>
    decide (p.1 = LetterScore.Absent ∧ p.2 = L)

/-- The two solving strategies of solver.rs. -/
inductive Strategy where
  | GROUPSIZE
  | GROUPCOUNT
deriving DecidableEq, Repr

/-- The Solver struct of solver.rs.  The verbose flag only controls printing
and is omitted; word lists are lists of words. -/
structure Solver where
  possibilities : List Word
  guessable_list : List Word
  solution_list : List Word
  history : List (Word × DetailScore)
  hard_mode : Bool
  strategy : Strategy
deriving DecidableEq, Repr

/-- Solver::new: the possibility set starts as the whole solution list. -/
def Solver.new (guessable_list solution_list : List Word) (hard_mode : Bool)
    (strategy : Strategy) : Solver :=
  { possibilities := solution_list
    guessable_list := guessable_list
    solution_list := solution_list
    history := []
    hard_mode := hard_mode
    strategy := strategy }

/-- Solver::respond_to_score: push the pair onto the history in hard mode,
retain exactly the possibilities whose score against the guess equals the
reported score, and treat the "No possibilities left" panic as none. -/
def Solver.respond_to_score (s : Solver) (guess : Word) (score : DetailScore) :
    Option Solver :=
  let history := if s.hard_mode then s.history ++ [(guess, score)] else s.history
  let possibilities := s.possibilities.filter fun possibility =>
    decide (compute_score guess possibility = score)
  if possibilities.length = 0 then none
  else some { s with history := history, possibilities := possibilities }

/-- The Eval struct of eval.rs: the distinct-group count and the negated
size of the largest group, i32 values modelled as Int. -/
structure Eval where
  count : Int
  size : Int
deriving DecidableEq, Repr

/-- The groups array built by eval_guess: how many possibilities would
produce each packed score against the guess. -/
def groups (guess : Word) (possibilities : List Word) (score : DetailScore) : Nat :=
  possibilities.countP fun possible_sol =>
    decide (compute_score guess possible_sol = score)

/-- The largest entry of the groups array (groups.iter().max().unwrap();
every entry is a non-negative count, so folding max from 0 is the same
maximum). -/
def maxGroup (guess : Word) (possibilities : List Word) : Nat :=
  (all_possible.map (groups guess possibilities)).foldr max 0

/-- eval_guess of eval.rs: count is the number of non-zero groups, size is
the negated largest group. -/
def eval_guess (guess : Word) (possibilities : List Word) : Eval :=
  { count := (all_possible.countP fun score =>
      decide (groups guess possibilities score ≠ 0) : Nat)
    size := -(maxGroup guess possibilities : Int) }

/-- reduce_eval of eval.rs: counts add, sizes combine with max. -/
def reduce_eval (a b : Eval) : Eval :=
  { count := a.count + b.count, size := max a.size b.size }

/-- usize::MAX, the initial per-guess minimum in the elimination loops. -/
def USIZE_MAX : Nat := 2 ^ 64 - 1

/-- The hard-mode filter shared by all guess loops: a guess is allowed when
scoring every previous guess against it reproduces the recorded score. -/
def hardOk (history : List (Word × DetailScore)) (guess : Word) : Bool :=
  history.all fun pr => decide (compute_score pr.1 guess = pr.2)

/-- The innermost loop of next_guess_groupsize: count the possibilities
eliminated by one score, stopping early (and keeping the partial count) as
soon as the count exceeds the per-guess minimum seen so far. -/
def countElimS (guess : Word) (score : DetailScore) (minElim : Nat) :
    List Word → Nat → Nat
  | [], acc => acc
  | p :: rest, acc =>
    let acc2 := if compute_score guess p ≠ score then acc + 1 else acc
    if minElim < acc2 then acc2 else countElimS guess score minElim rest acc2

/-- The score loop of next_guess_groupsize: fold the per-score counts into a
running minimum, breaking out of the loop once the minimum falls below the
best minimum found so far for earlier guesses. -/
def scoreLoopS (guess : Word) (possibilities : List Word) (maxMin : Nat) :
    List DetailScore → Nat → Nat
  | [], minElim => minElim
  | score :: rest, minElim =>
    let e := countElimS guess score minElim possibilities 0
    let minElim2 := if e < minElim then e else minElim
    if minElim2 < maxMin then minElim2
    else scoreLoopS guess possibilities maxMin rest minElim2

/-- The outer loop of next_guess_groupsize: clear the collected list on a
strict improvement of the maximal minimum, append on a tie. -/
def guessLoopS (possibilities : List Word) (history : List (Word × DetailScore))
    (hard_mode : Bool) : List Word → Nat → List Word → Nat × List Word
  | [], maxMin, acc => (maxMin, acc)
  | g :: rest, maxMin, acc =>
    if hard_mode = true ∧ ¬hardOk history g = true then
      guessLoopS possibilities history hard_mode rest maxMin acc
    else
      let r := scoreLoopS g possibilities maxMin all_possible USIZE_MAX
      let maxMin2 := if maxMin < r then r else maxMin
      let acc2 := if maxMin < r then [g] else if r = maxMin then acc ++ [g] else acc
      guessLoopS possibilities history hard_mode rest maxMin2 acc2

/-- next_guess_groupsize of solver.rs: iterate solutions then guessables,
return the first best guess that is still a possibility, else the last best
guess (the last().unwrap() panic on an empty list is modelled as none). -/
def Solver.next_guess_groupsize (s : Solver) : Option Word :=
  let r := guessLoopS s.possibilities s.history s.hard_mode
    (s.solution_list ++ s.guessable_list) 0 []
  match r.2.find? (fun g => decide (g ∈ s.possibilities)) with
  | some g => some g
  | none => r.2.getLast?

/-- The size of the possible-score set of next_guess_groupcount: the number
of distinct scores the guess can get over the possibility list. -/
def possibleScoreCount (guess : Word) (possibilities : List Word) : Nat :=
  ((possibilities.map fun possibility => compute_score guess possibility).dedup).length

/-- The outer loop of next_guess_groupcount. -/
def guessLoopC (possibilities : List Word) (history : List (Word × DetailScore))
    (hard_mode : Bool) : List Word → Nat → List Word → Nat × List Word
  | [], maxCount, acc => (maxCount, acc)
  | g :: rest, maxCount, acc =>
    if hard_mode = true ∧ ¬hardOk history g = true then
      guessLoopC possibilities history hard_mode rest maxCount acc
    else
      let c := possibleScoreCount g possibilities
      let maxCount2 := if maxCount < c then c else maxCount
      let acc2 := if maxCount < c then [g] else if c = maxCount then acc ++ [g] else acc
      guessLoopC possibilities history hard_mode rest maxCount2 acc2

/-- next_guess_groupcount of solver.rs: as groupsize, but the fallback is
the first collected guess (max_groupcount_guesses[0]). -/
def Solver.next_guess_groupcount (s : Solver) : Option Word :=
  let r := guessLoopC s.possibilities s.history s.hard_mode
    (s.solution_list ++ s.guessable_list) 0 []
  match r.2.find? (fun g => decide (g ∈ s.possibilities)) with
  | some g => some g
  | none => r.2.head?

/-- Solver::next_guess: the single-possibility shortcut, then strategy
dispatch. -/
def Solver.next_guess (s : Solver) : Option Word :=
  if s.possibilities.length = 1 then s.possibilities.head?
  else
    match s.strategy with
    | Strategy.GROUPCOUNT => s.next_guess_groupcount
    | Strategy.GROUPSIZE => s.next_guess_groupsize

/-- The unpruned per-score elimination count: every (score, possibility)
pair is inspected. -/
def countElimFull (guess : Word) (score : DetailScore) (possibilities : List Word) : Nat :=
  possibilities.countP fun p => decide (compute_score guess p ≠ score)

/-- The unpruned per-guess worst-case value: the minimum over all 243 scores
of the full elimination count, folded from usize::MAX like the source. -/
def minElimFull (guess : Word) (possibilities : List Word) : Nat :=
  (all_possible.map fun score => countElimFull guess score possibilities).foldr
    min USIZE_MAX

/-- The unpruned reference outer loop: the selection logic of guessLoopS
with every guess scored by minElimFull. -/
def guessLoopFull (possibilities : List Word) (history : List (Word × DetailScore))
    (hard_mode : Bool) : List Word → Nat → List Word → Nat × List Word
  | [], maxMin, acc => (maxMin, acc)
  | g :: rest, maxMin, acc =>
    if hard_mode = true ∧ ¬hardOk history g = true then
      guessLoopFull possibilities history hard_mode rest maxMin acc
    else
      let r := minElimFull g possibilities
      let maxMin2 := if maxMin < r then r else maxMin
      let acc2 := if maxMin < r then [g] else if r = maxMin then acc ++ [g] else acc
      guessLoopFull possibilities history hard_mode rest maxMin2 acc2

/-- The unpruned reference version of next_guess_groupsize. -/
def Solver.next_guess_groupsize_full (s : Solver) : Option Word :=
  let r := guessLoopFull s.possibilities s.history s.hard_mode
    (s.solution_list ++ s.guessable_list) 0 []
  match r.2.find? (fun g => decide (g ∈ s.possibilities)) with
  | some g => some g
  | none => r.2.getLast?

/-- A five-word catalog on which all five words tie on the largest feedback
bucket while having different distinct-bucket counts (abcdd, abcde, abcdf,
abced, abcfd). -/
def exCatalog : List Word :=
  [[0, 1, 2, 3, 3], [0, 1, 2, 3, 4], [0, 1, 2, 3, 5], [0, 1, 2, 4, 3], [0, 1, 2, 5, 3]]

/-- The Solver struct of bin/absurdle-solver.rs. -/
structure AbsSolver where
  target_word : Word
  possibilities : List Word
  history : List (Word × DetailScore)
  guessable_list : List Word
  solutions_list : List Word
  hard_mode : Bool
deriving DecidableEq, Repr

/-- Solver::new of the absurdle solver. -/
def AbsSolver.new (target_word : Word) (guessable_list solutions_list : List Word)
    (hard_mode : Bool) : AbsSolver :=
  { target_word := target_word
    possibilities := solutions_list
    history := []
    guessable_list := guessable_list
    solutions_list := solutions_list
    hard_mode := hard_mode }

/-- The innermost loop of the absurdle next_guess: like countElimS, but on
exceeding the per-guess minimum the whole score is abandoned (continue to
the next score), modelled as none. -/
def countElimB (guess : Word) (score : DetailScore) (minElim : Nat) :
    List Word → Nat → Option Nat
  | [], acc => some acc
  | p :: rest, acc =>
    let acc2 := if compute_score guess p ≠ score then acc + 1 else acc
    if minElim < acc2 then none else countElimB guess score minElim rest acc2

/-- The tie handling of the absurdle score loop: on an equal elimination
count, keep whichever of the recorded and the new score has the smaller
absurdle_entropy_lost.  The unwrap of a missing recorded score cannot fire
on the real call (the first score always completes and records itself); it
is modelled as none. -/
def tieBreak (score : DetailScore) : Option DetailScore → Option DetailScore
  | some st0 =>
    if absurdle_entropy_lost score < absurdle_entropy_lost st0 then some score
    else some st0
  | none => none

/-- The score loop of the absurdle next_guess: track the minimum number of
possibilities eliminated and the score achieving it, breaking ties toward
the smaller absurdle_entropy_lost; abandon the guess (none) once the
running minimum falls below the best minimum found so far. -/
def scoreLoopB (guess : Word) (possibilities : List Word) (best : Nat) :
    List DetailScore → Nat → Option DetailScore → Option (Nat × Option DetailScore)
  | [], minElim, scoreThat => some (minElim, scoreThat)
  | score :: rest, minElim, scoreThat =>
    match countElimB guess score minElim possibilities 0 with
    | none => scoreLoopB guess possibilities best rest minElim scoreThat
    | some e =>
      let scoreThat2 :=
        if e < minElim then some score
        else if e = minElim then tieBreak score scoreThat
        else scoreThat
      let minElim2 := if e < minElim then e else minElim
      if minElim2 < best then none
      else scoreLoopB guess possibilities best rest minElim2 scoreThat2

/-- The outer loop of the absurdle next_guess: skip the target word and
hard-mode-rejected guesses, drop guesses whose judge score was pruned or
fails the target check, raise the best minimum and append survivors tied
with it (the list is never cleared, keeping worse fallbacks). -/
def absGuessLoop (target : Word) (possibilities : List Word)
    (history : List (Word × DetailScore)) (hard_mode : Bool) :
    List Word → Nat → List Word → Nat × List Word
  | [], best, acc => (best, acc)
  | g :: rest, best, acc =>
    if g = target then
      absGuessLoop target possibilities history hard_mode rest best acc
    else if hard_mode = true ∧ ¬hardOk history g = true then
      absGuessLoop target possibilities history hard_mode rest best acc
    else
      match scoreLoopB g possibilities best all_possible USIZE_MAX none with
      | none => absGuessLoop target possibilities history hard_mode rest best acc
      | some (minE, scoreThat) =>
        match scoreThat with
        | none => absGuessLoop target possibilities history hard_mode rest best acc
        | some st =>
          if compute_score g target ≠ st then
            absGuessLoop target possibilities history hard_mode rest best acc
          else
            let best2 := if best < minE then minE else best
            let acc2 := if minE = best2 then acc ++ [g] else acc
            absGuessLoop target possibilities history hard_mode rest best2 acc2

/-- next_guess of the absurdle solver: guessables first, then solutions. -/
def AbsSolver.next_guess (s : AbsSolver) : List Word :=
  if s.possibilities.length = 1 then s.possibilities
  else
    (absGuessLoop s.target_word s.possibilities s.history s.hard_mode
      (s.guessable_list ++ s.solutions_list) 0 []).2

/-- The unpruned score loop: every (score, possibility) pair counted. -/
def scoreLoopBFull (guess : Word) (possibilities : List Word) :
    List DetailScore → Nat → Option DetailScore → Nat × Option DetailScore
  | [], minElim, scoreThat => (minElim, scoreThat)
  | score :: rest, minElim, scoreThat =>
    let e := countElimFull guess score possibilities
    let scoreThat2 :=
      if e < minElim then some score
      else if e = minElim then tieBreak score scoreThat
      else scoreThat
    let minElim2 := if e < minElim then e else minElim
    scoreLoopBFull guess possibilities rest minElim2 scoreThat2

/-- The per-guess bookkeeping of the unpruned absurdle reference loop,
taking the full score-loop result: drop the guess when its minimum is
below the best so far or its judge score fails the target check, otherwise
raise the best minimum and append the guess when tied with it. -/
def absStepFull (target g : Word) (best : Nat) (acc : List Word) :
    Nat × Option DetailScore → Nat × List Word
  | (_, none) => (best, acc)
  | (minE, some st) =>
    if minE < best then (best, acc)
    else if compute_score g target ≠ st then (best, acc)
    else
      let best2 := if best < minE then minE else best
      let acc2 := if minE = best2 then acc ++ [g] else acc
      (best2, acc2)

/-- The unpruned reference outer loop of the absurdle next_guess. -/
def absGuessLoopFull (target : Word) (possibilities : List Word)
    (history : List (Word × DetailScore)) (hard_mode : Bool) :
    List Word → Nat → List Word → Nat × List Word
  | [], best, acc => (best, acc)
  | g :: rest, best, acc =>
    if g = target then
      absGuessLoopFull target possibilities history hard_mode rest best acc
    else if hard_mode = true ∧ ¬hardOk history g = true then
      absGuessLoopFull target possibilities history hard_mode rest best acc
    else
      let p := absStepFull target g best acc
        (scoreLoopBFull g possibilities all_possible USIZE_MAX none)
      absGuessLoopFull target possibilities history hard_mode rest p.1 p.2

/-- The unpruned reference version of the absurdle next_guess. -/
def AbsSolver.next_guess_full (s : AbsSolver) : List Word :=
  if s.possibilities.length = 1 then s.possibilities
  else
    (absGuessLoopFull s.target_word s.possibilities s.history s.hard_mode
      (s.guessable_list ++ s.solutions_list) 0 []).2

/-- The property of being the judge-assigned score for a guess among a list
of candidate scores: it eliminates the fewest possibilities, with ties
broken toward the smaller absurdle_entropy_lost value. -/
def IsJudgeScore (guess : Word) (possibilities : List Word)
    (scores : List DetailScore) (st : DetailScore) : Prop :=
  st ∈ scores ∧
    (∀ sc ∈ scores, countElimFull guess st possibilities
      ≤ countElimFull guess sc possibilities) ∧
    ∀ sc ∈ scores, countElimFull guess sc possibilities
        = countElimFull guess st possibilities →
      st = sc ∨ absurdle_entropy_lost st < absurdle_entropy_lost sc

/-- respond_to_score of the absurdle solver (panic as none). -/
def AbsSolver.respond_to_score (s : AbsSolver) (guess : Word) (score : DetailScore) :
    Option AbsSolver :=
  let possibilities := s.possibilities.filter fun poss =>
    decide (compute_score guess poss = score)
  if possibilities.isEmpty then none
  else some { s with possibilities := possibilities }

/-- The outcome of Solver::solve: the win message, the total-failure
message, or a panic (an unwrap on an empty stack or level, or the
no-possibilities-left panic inside replay). -/
inductive SolveOutcome where
  | win
  | totalFailure
  | panicked
deriving DecidableEq, Repr

/-- One replay step of Solver::solve: respond to the last guess of a stack
level, scored against the target, and record it in the history. -/
def replayStep (target : Word) (s : AbsSolver) (level : List Word) : Option AbsSolver :=
  match level.getLast? with
  | none => none
  | some best_guess =>
    match s.respond_to_score best_guess (compute_score best_guess target) with
    | none => none
    | some s2 =>
      some { s2 with history := s2.history ++ [(best_guess, compute_score best_guess target)] }

/-- Reconstruct the state for the current stack of guesses, replaying from
the fresh state.  The stack is stored with the most recent level at the
head, so the foldr applies the oldest level first. -/
def replayStack (s0 : AbsSolver) (stack : List (List Word)) : Option AbsSolver :=
  stack.foldr
    (fun level os =>
      match os with
      | none => none
      | some s => replayStep s0.target_word s level)
    (some { s0 with possibilities := s0.solutions_list, history := [] })

/-- The backtracking while-loop of Solver::solve: while the most recent
level is empty, pop it and drop the last guess of the level below;
an emptied stack is total failure. -/
def unwindLoop : List (List Word) → SolveOutcome ⊕ List (List Word)
  | [] => Sum.inl SolveOutcome.panicked
  | level :: rest =>
    if level.isEmpty then
      match rest with
      | [] => Sum.inl SolveOutcome.totalFailure
      | level2 :: rest2 => unwindLoop (level2.dropLast :: rest2)
    else Sum.inr (level :: rest)
termination_by stack => stack.length

/-- One iteration of the loop of Solver::solve on the guess stack (most
recent level at the head): compute the next guesses from the replayed
state, then either backtrack, declare the win, or push. -/
def solveStep (s0 : AbsSolver) (stack : List (List Word)) :
    SolveOutcome ⊕ List (List Word) :=
  match replayStack s0 stack with
  | none => Sum.inl SolveOutcome.panicked
  | some st =>
    let next_guesses := st.next_guess
    if next_guesses.isEmpty then
      match stack with
      | [] => Sum.inl SolveOutcome.panicked
      | level :: rest => unwindLoop (level.dropLast :: rest)
    else if next_guesses.length = 1 ∧ next_guesses.head? = some s0.target_word then
      Sum.inl SolveOutcome.win
    else
      Sum.inr (next_guesses :: stack)

/-- n iterations of the solve loop from the empty stack. -/
def solveStepN (s0 : AbsSolver) : Nat → SolveOutcome ⊕ List (List Word)
  | 0 => Sum.inr []
  | n + 1 =>
    match solveStepN s0 n with
    | Sum.inl outcome => Sum.inl outcome
    | Sum.inr stack => solveStep s0 stack

/-- A catalog on which the backtracking search never terminates: solutions
aaaaa, bbbbb, aabbc with target aabbc, and one guessable word ddddd sharing
no letter with any solution. -/
def exAbsSolver : AbsSolver :=
  AbsSolver.new [0, 0, 1, 1, 2] [[3, 3, 3, 3, 3]]
    [[0, 0, 0, 0, 0], [1, 1, 1, 1, 1], [0, 0, 1, 1, 2]] false

/-- The MultiSolver struct of multisolver.rs. -/
structure MultiSolver where
  solvers : List Solver
  responded : List Bool
  done : List Bool
  guessable_list : List Word
  solution_list : List Word
  strategy : Strategy
deriving DecidableEq, Repr

/-- MultiSolver::new: count identical single-board solvers, no board yet
responded or done. -/
def MultiSolver.new (count : Nat) (guessable_list solution_list : List Word)
    (strategy : Strategy) : MultiSolver :=
  { solvers := List.replicate count
      (Solver.new guessable_list solution_list false strategy)
    responded := List.replicate count false
    done := List.replicate count false
    guessable_list := guessable_list
    solution_list := solution_list
    strategy := strategy }

/-- MultiSolver::respond_to_score: the assert on an already-responded board
and an out-of-range index are panics (none); the indexed board is filtered,
the board is marked responded, and on a winning score marked done. -/
def MultiSolver.respond_to_score (m : MultiSolver) (index : Nat) (guess : Word)
    (score : DetailScore) : Option MultiSolver :=
  match m.responded[index]?, m.solvers[index]? with
  | some r, some sv =>
    if r = true then none
    else
      match sv.respond_to_score guess score with
      | none => none
      | some sv2 =>
        some { m with
          solvers := m.solvers.set index sv2
          responded := m.responded.set index true
          done := if is_win score then m.done.set index true else m.done }
  | _, _ => none

/-- The single-possibility shortcut test of MultiSolver::next_guess: some
board is not done and has exactly one possibility left. -/
def MultiSolver.shortcutFired (m : MultiSolver) : Bool :=
  (m.solvers.zip m.done).any fun p => !p.2 && p.1.possibilities.length == 1

/-- The filter of the multi-board joint evaluation in
MultiSolver::next_guess: boards whose possibility count is 1 are skipped. -/
def MultiSolver.evalBoards (m : MultiSolver) : List Solver :=
  m.solvers.filter fun solver => decide (solver.possibilities.length ≠ 1)

/-- The invariant tying the done flags of a MultiSolver to its boards: a
board marked done holds exactly one remaining possibility. -/
def DoneInv (m : MultiSolver) : Prop :=
  ∀ p ∈ m.solvers.zip m.done, p.2 = true → p.1.possibilities.length = 1

/-- A concrete one-possibility solver state used as a witness value. -/
def exWinSolver : Solver :=
  { possibilities := [[1, 1, 1, 1, 1]]
    guessable_list := []
    solution_list := [[0, 0, 0, 0, 0], [1, 1, 1, 1, 1]]
    history := []
    hard_mode := false
    strategy := Strategy.GROUPSIZE }

/-- A concrete one-board multi solver state (board responded and done)
used as a witness value. -/
def exWinMulti : MultiSolver :=
  { solvers := [exWinSolver]
    responded := [true]
    done := [true]
    guessable_list := []
    solution_list := [[0, 0, 0, 0, 0], [1, 1, 1, 1, 1]]
    strategy := Strategy.GROUPSIZE }

-- ===================== Theorems =====================

theorem pass1_marks (l : List (Nat × Nat)) (cnt : Nat → Nat) :
    (pass1 l cnt).1
      = l.map fun p => if p.1 = p.2 then LetterScore.Correct else LetterScore.Absent := by
  induction l generalizing cnt with
  | nil => rfl
  | cons p rest ih => by_cases h : p.1 = p.2 <;> simp [pass1, h, ih]

theorem pass1_counts (l : List (Nat × Nat)) (cnt : Nat → Nat) (c : Nat) :
    (pass1 l cnt).2 c = cnt c - l.countP fun p => decide (p.1 = p.2 ∧ p.1 = c) := by
  induction l generalizing cnt with
  | nil => simp [pass1]
  | cons p rest ih =>
    by_cases h : p.1 = p.2
    · by_cases hc : p.1 = c
      · simp only [pass1, if_pos h, ih, List.countP_cons, decide_eq_true_eq, h, hc,
          and_self, if_pos trivial, decr]
        have h1 : c = p.2 := by omega
        rw [if_pos h1, if_pos ⟨trivial, h1.symm⟩, h1]
        omega
      · have hc2 : ¬(p.2 = c) := fun hh => hc (h ▸ hh)
        simp only [pass1, if_pos h, ih, List.countP_cons, decide_eq_true_eq, decr]
        rw [if_neg (fun hh : c = p.1 => hc hh.symm)]
        simp [hc]
    · simp [pass1, h, ih, List.countP_cons]

theorem pass2_length (l : List (LetterScore × Nat)) (cnt : Nat → Nat) :
    (pass2 l cnt).length = l.length := by
  induction l generalizing cnt with
  | nil => rfl
  | cons p rest ih =>
    by_cases h : p.1 ≠ LetterScore.Correct ∧ 0 < cnt p.2 <;> simp [pass2, h, ih]

theorem pass2_present_count (L : Nat) (l : List (LetterScore × Nat)) (cnt : Nat → Nat)
    (hl : ∀ p ∈ l, p.1 ≠ LetterScore.Present) :
    ((pass2 l cnt).zip (l.map Prod.snd)).countP
        (fun p => decide (p.1 = LetterScore.Present ∧ p.2 = L))
      = min (cnt L) (l.countP fun p => decide (p.1 ≠ LetterScore.Correct ∧ p.2 = L)) := by
  induction l generalizing cnt with
  | nil => simp [pass2]
  | cons p rest ih =>
    have hp : p.1 ≠ LetterScore.Present := hl p (List.mem_cons_self _ _)
    have hrest : ∀ q ∈ rest, q.1 ≠ LetterScore.Present :=
      fun q hq => hl q (List.mem_cons_of_mem _ hq)
    by_cases h : p.1 ≠ LetterScore.Correct ∧ 0 < cnt p.2
    · by_cases hc : p.2 = L
      · subst hc
        have hdec : decr cnt p.2 p.2 = cnt p.2 - 1 := by simp [decr]
        have hih := ih (decr cnt p.2) hrest
        rw [hdec] at hih
        simp only [pass2, if_pos h, List.map_cons, List.zip_cons_cons, List.countP_cons, hih]
        simp only [decide_eq_true_eq, and_true, true_and, decide_True, if_true, if_pos h.1]
        have hpos := h.2
        omega
      · have hdec : decr cnt p.2 L = cnt L := by
          have hne : ¬(L = p.2) := fun hh => hc hh.symm
          simp [decr, hne]
        simp only [pass2, if_pos h, List.map_cons, List.zip_cons_cons, List.countP_cons,
          decide_eq_true_eq, ih _ hrest, hdec]
        simp [hc]
    · have hsplit : p.1 = LetterScore.Correct ∨ cnt p.2 = 0 := by
        rcases not_and_or.mp h with h1 | h2
        · exact Or.inl (not_not.mp h1)
        · exact Or.inr (by omega)
      simp only [pass2, if_neg h, List.map_cons, List.zip_cons_cons, List.countP_cons,
        decide_eq_true_eq, ih _ hrest]
      rcases hsplit with h1 | h2
      · simp [h1]
      · by_cases hc : p.2 = L
        · subst hc
          simp [h2, hp]
        · simp [hc, hp]

theorem pass2_correct_count (L : Nat) (l : List (LetterScore × Nat)) (cnt : Nat → Nat) :
    ((pass2 l cnt).zip (l.map Prod.snd)).countP
        (fun p => decide (p.1 = LetterScore.Correct ∧ p.2 = L))
      = l.countP (fun p => decide (p.1 = LetterScore.Correct ∧ p.2 = L)) := by
  induction l generalizing cnt with
  | nil => simp [pass2]
  | cons p rest ih =>
    by_cases h : p.1 ≠ LetterScore.Correct ∧ 0 < cnt p.2
    · simp only [pass2, if_pos h, List.map_cons, List.zip_cons_cons, List.countP_cons,
        decide_eq_true_eq, ih]
      simp [h.1]
    · simp only [pass2, if_neg h, List.map_cons, List.zip_cons_cons, List.countP_cons,
        decide_eq_true_eq, ih]

theorem countP_split_aux {a : Type} (f g h : a → Bool)
    (hpt : ∀ x, ((f x = true ∨ g x = true) ↔ h x = true) ∧ ¬(f x = true ∧ g x = true)) :
    ∀ l : List a, l.countP f + l.countP g = l.countP h := by
  intro l
  induction l with
  | nil => rfl
  | cons x rest ih =>
    simp only [List.countP_cons]
    rcases hpt x with ⟨hiff, hnand⟩
    by_cases hf : f x = true <;> by_cases hg : g x = true
    · exact absurd ⟨hf, hg⟩ hnand
    · have hh : h x = true := hiff.mp (Or.inl hf)
      simp [hf, hg, hh]
      omega
    · have hh : h x = true := hiff.mp (Or.inr hg)
      simp [hf, hg, hh]
      omega
    · have hh : ¬h x = true := by
        intro hh
        rcases hiff.mpr hh with h1 | h1
        · exact hf h1
        · exact hg h1
      simp [hf, hg, hh]
      omega

theorem countP_letter_split (L : Nat) (l : List (LetterScore × Nat)) :
    (l.countP fun p => decide ((p.1 = LetterScore.Correct ∨ p.1 = LetterScore.Present) ∧ p.2 = L))
        + (l.countP fun p => decide (p.1 = LetterScore.Absent ∧ p.2 = L))
      = l.countP fun p => decide (p.2 = L) := by
  refine countP_split_aux _ _ _ (fun x => ?_) l
  cases hx : x.1 <;> simp [hx]

theorem countP_cp_split (L : Nat) (l : List (LetterScore × Nat)) :
    (l.countP fun p => decide ((p.1 = LetterScore.Correct ∨ p.1 = LetterScore.Present) ∧ p.2 = L))
      = (l.countP fun p => decide (p.1 = LetterScore.Correct ∧ p.2 = L))
        + (l.countP fun p => decide (p.1 = LetterScore.Present ∧ p.2 = L)) := by
  refine (countP_split_aux _ _ _ (fun x => ?_) l).symm
  cases hx : x.1 <;> simp [hx]

theorem scoreList_eq_pass2_map (g s : Word) (h : g.length = s.length) :
    scoreList g s
      = pass2 ((g.zip s).map fun z =>
          (if z.1 = z.2 then LetterScore.Correct else LetterScore.Absent, z.1))
        (pass1 (g.zip s) (countsOf s)).2 := by
  have hz := List.zip_map'
    (fun z : Nat × Nat =>
      (if z.1 = z.2 then LetterScore.Correct else LetterScore.Absent : LetterScore))
    Prod.fst (g.zip s)
  rw [List.map_fst_zip g s (le_of_eq h)] at hz
  show pass2 ((pass1 (g.zip s) (countsOf s)).1.zip g) (pass1 (g.zip s) (countsOf s)).2 = _
  rw [pass1_marks, hz]

theorem markMap_snd (g s : Word) (h : g.length = s.length) :
    ((g.zip s).map fun z =>
        (if z.1 = z.2 then LetterScore.Correct else LetterScore.Absent, z.1)).map Prod.snd
      = g := by
  rw [List.map_map]
  have hcomp : (Prod.snd ∘ fun z : Nat × Nat =>
      ((if z.1 = z.2 then LetterScore.Correct else LetterScore.Absent : LetterScore), z.1))
      = Prod.fst := by
    funext z
    rfl
  rw [hcomp, List.map_fst_zip g s (le_of_eq h)]

theorem count_eq_countP_decide (l : List Nat) (L : Nat) :
    l.count L = l.countP fun x => decide (x = L) := by
  rw [List.count_eq_countP]
  exact List.countP_congr (by intro x _; by_cases hx : x = L <;> simp [hx])

theorem cp_out_eval (L : Nat) (l : List (LetterScore × Nat)) (cnt : Nat → Nat)
    (hl : ∀ p ∈ l, p.1 ≠ LetterScore.Present) :
    ((pass2 l cnt).zip (l.map Prod.snd)).countP
        (fun p => decide ((p.1 = LetterScore.Correct ∨ p.1 = LetterScore.Present) ∧ p.2 = L))
      = l.countP (fun p => decide (p.1 = LetterScore.Correct ∧ p.2 = L))
        + min (cnt L) (l.countP fun p => decide (p.1 ≠ LetterScore.Correct ∧ p.2 = L)) := by
  rw [countP_cp_split, pass2_correct_count, pass2_present_count _ _ _ hl]

theorem abs_out_eval (L : Nat) (l : List (LetterScore × Nat)) (cnt : Nat → Nat) :
    ((pass2 l cnt).zip (l.map Prod.snd)).countP
        (fun p => decide (p.1 = LetterScore.Absent ∧ p.2 = L))
      = ((pass2 l cnt).zip (l.map Prod.snd)).countP (fun p => decide (p.2 = L))
        - ((pass2 l cnt).zip (l.map Prod.snd)).countP
            (fun p => decide ((p.1 = LetterScore.Correct ∨ p.1 = LetterScore.Present) ∧ p.2 = L)) := by
  have := countP_letter_split L ((pass2 l cnt).zip (l.map Prod.snd))
  omega

theorem out_letter_total (L : Nat) (l : List (LetterScore × Nat)) (cnt : Nat → Nat) :
    ((pass2 l cnt).zip (l.map Prod.snd)).countP (fun p => decide (p.2 = L))
      = (l.map Prod.snd).countP (fun x => decide (x = L)) := by
  have hlen : (l.map Prod.snd).length ≤ (pass2 l cnt).length := by
    rw [pass2_length, List.length_map]
  have hm := List.countP_map (fun x : Nat => decide (x = L))
    (Prod.snd : LetterScore × Nat → Nat) ((pass2 l cnt).zip (l.map Prod.snd))
  rw [List.map_snd_zip _ _ hlen] at hm
  rw [hm]
  rfl

theorem cpCount_eval (g s : Word) (L : Nat) (h : g.length = s.length) :
    cpCount g s L
      = ((g.zip s).countP fun z => decide (z.1 = z.2 ∧ z.1 = L))
        + min (s.count L - (g.zip s).countP fun z => decide (z.1 = z.2 ∧ z.1 = L))
            ((g.zip s).countP fun z => decide (¬z.1 = z.2 ∧ z.1 = L)) := by
  have hl : ∀ p ∈ (g.zip s).map fun z : Nat × Nat =>
      ((if z.1 = z.2 then LetterScore.Correct else LetterScore.Absent : LetterScore), z.1),
      p.1 ≠ LetterScore.Present := by
    intro p hp
    rcases List.mem_map.mp hp with ⟨z, _, rfl⟩
    by_cases hz : z.1 = z.2 <;> simp [hz]
  have hmain := cp_out_eval L
    ((g.zip s).map fun z : Nat × Nat =>
      ((if z.1 = z.2 then LetterScore.Correct else LetterScore.Absent : LetterScore), z.1))
    (pass1 (g.zip s) (countsOf s)).2 hl
  rw [markMap_snd g s h] at hmain
  unfold cpCount
  rw [scoreList_eq_pass2_map g s h, hmain]
  rw [List.countP_map, List.countP_map, pass1_counts]
  have hcorr : ((g.zip s).countP ((fun p : LetterScore × Nat =>
        decide (p.1 = LetterScore.Correct ∧ p.2 = L)) ∘ fun z : Nat × Nat =>
        ((if z.1 = z.2 then LetterScore.Correct else LetterScore.Absent : LetterScore), z.1)))
      = (g.zip s).countP fun z => decide (z.1 = z.2 ∧ z.1 = L) :=
    List.countP_congr (by
      intro z _
      by_cases hz : z.1 = z.2 <;> simp [Function.comp, hz])
  have havail : ((g.zip s).countP ((fun p : LetterScore × Nat =>
        decide (p.1 ≠ LetterScore.Correct ∧ p.2 = L)) ∘ fun z : Nat × Nat =>
        ((if z.1 = z.2 then LetterScore.Correct else LetterScore.Absent : LetterScore), z.1)))
      = (g.zip s).countP fun z => decide (¬z.1 = z.2 ∧ z.1 = L) :=
    List.countP_congr (by
      intro z _
      by_cases hz : z.1 = z.2 <;> simp [Function.comp, hz])
  rw [hcorr, havail]
  rfl

theorem absentCount_eval (g s : Word) (L : Nat) (h : g.length = s.length) :
    absentCount g s L = g.count L - cpCount g s L := by
  have hmain := abs_out_eval L
    ((g.zip s).map fun z : Nat × Nat =>
      ((if z.1 = z.2 then LetterScore.Correct else LetterScore.Absent : LetterScore), z.1))
    (pass1 (g.zip s) (countsOf s)).2
  have htot := out_letter_total L
    ((g.zip s).map fun z : Nat × Nat =>
      ((if z.1 = z.2 then LetterScore.Correct else LetterScore.Absent : LetterScore), z.1))
    (pass1 (g.zip s) (countsOf s)).2
  rw [markMap_snd g s h] at hmain htot
  unfold absentCount cpCount
  rw [scoreList_eq_pass2_map g s h, hmain, htot, ← count_eq_countP_decide]

theorem zip_snd_count (g s : Word) (L : Nat) (h : s.length ≤ g.length) :
    ((g.zip s).countP fun z => decide (z.2 = L)) = s.count L := by
  have hm := List.countP_map (fun x : Nat => decide (x = L))
    (Prod.snd : Nat × Nat → Nat) (g.zip s)
  rw [List.map_snd_zip _ _ h] at hm
  rw [count_eq_countP_decide, hm]
  rfl

theorem zip_fst_count (g s : Word) (L : Nat) (h : g.length ≤ s.length) :
    ((g.zip s).countP fun z => decide (z.1 = L)) = g.count L := by
  have hm := List.countP_map (fun x : Nat => decide (x = L))
    (Prod.fst : Nat × Nat → Nat) (g.zip s)
  rw [List.map_fst_zip _ _ h] at hm
  rw [count_eq_countP_decide, hm]
  rfl

theorem corrZ_le_solution_count (g s : Word) (L : Nat) (h : g.length = s.length) :
    ((g.zip s).countP fun z => decide (z.1 = z.2 ∧ z.1 = L)) ≤ s.count L := by
  have h1 : ((g.zip s).countP fun z => decide (z.1 = z.2 ∧ z.1 = L))
      ≤ (g.zip s).countP fun z => decide (z.2 = L) := by
    refine List.countP_mono_left ?_
    intro z _ hz
    simp only [decide_eq_true_eq] at hz ⊢
    omega
  rw [zip_snd_count g s L (le_of_eq h.symm)] at h1
  exact h1

theorem corr_avail_total (g s : Word) (L : Nat) (h : g.length = s.length) :
    ((g.zip s).countP fun z => decide (z.1 = z.2 ∧ z.1 = L))
      + ((g.zip s).countP fun z => decide (¬z.1 = z.2 ∧ z.1 = L)) = g.count L := by
  rw [← zip_fst_count g s L (le_of_eq h)]
  refine countP_split_aux _ _ _ (fun z => ?_) _
  by_cases hz : z.1 = z.2 <;> by_cases hL : z.1 = L <;> simp [hz, hL] <;> tauto

/-- C1: for every guess and solution that are 5-letter lowercase words and
every letter L, the number of positions of compute_score(guess, solution)
whose guessed letter is L and which are marked Correct or Present is at most
the number of occurrences of L in the solution; and a guess carrying L twice
against a solution carrying L exactly once gets exactly one
Correct-or-Present mark and exactly one Absent mark for L (so never two
Present marks).  scoreList is the per-position list that compute_score
packs. -/
theorem compute_score_repeated_letter_conservation
    (guess solution : Word) (L : Nat)
    (hg : guess.length = 5) (hs : solution.length = 5)
    (hgl : ∀ c ∈ guess, c < 26) (hsl : ∀ c ∈ solution, c < 26) :
    cpCount guess solution L ≤ solution.count L ∧
      (guess.count L = 2 → solution.count L = 1 →
        cpCount guess solution L = 1 ∧ absentCount guess solution L = 1) := by
  have hlen : guess.length = solution.length := by omega
  have hcp := cpCount_eval guess solution L hlen
  have habs := absentCount_eval guess solution L hlen
  have hle := corrZ_le_solution_count guess solution L hlen
  have htot := corr_avail_total guess solution L hlen
  constructor
  · omega
  · intro h2 h1
    omega

/-- Witness for C1: guess espoo against solution glorp, letter o (the
doubled-letter example from the unit tests of score.rs). -/
theorem compute_score_repeated_letter_conservation_witness :
    cpCount [4, 18, 15, 14, 14] [6, 11, 14, 17, 15] 14
        ≤ ([6, 11, 14, 17, 15] : Word).count 14 ∧
      (([4, 18, 15, 14, 14] : Word).count 14 = 2 →
        ([6, 11, 14, 17, 15] : Word).count 14 = 1 →
        cpCount [4, 18, 15, 14, 14] [6, 11, 14, 17, 15] 14 = 1 ∧
          absentCount [4, 18, 15, 14, 14] [6, 11, 14, 17, 15] 14 = 1) :=
  compute_score_repeated_letter_conservation [4, 18, 15, 14, 14] [6, 11, 14, 17, 15] 14
    (by decide) (by decide) (by decide) (by decide)

/-- C2: whenever respond_to_score(guess, feedback) returns normally, the new
possibility set is exactly the filter (hence a sublist, so a subsequence and
subset) of the prior possibility set keeping the words whose compute_score
against the guess equals the supplied feedback, and no word whose computed
feedback equals the supplied feedback is excluded. -/
theorem respond_to_score_filters (s : Solver) (guess : Word) (score : DetailScore)
    (s2 : Solver) (h : s.respond_to_score guess score = some s2) :
    s2.possibilities
        = s.possibilities.filter (fun w => decide (compute_score guess w = score)) ∧
      s2.possibilities.Sublist s.possibilities ∧
      (∀ w ∈ s2.possibilities, w ∈ s.possibilities) ∧
      (∀ w ∈ s.possibilities, compute_score guess w = score → w ∈ s2.possibilities) := by
  rw [Solver.respond_to_score] at h
  by_cases hlen : (s.possibilities.filter fun w =>
      decide (compute_score guess w = score)).length = 0
  · rw [if_pos hlen] at h
    exact absurd h (by simp)
  · rw [if_neg hlen] at h
    have h2 := Option.some.inj h
    have hposs : s2.possibilities
        = s.possibilities.filter (fun w => decide (compute_score guess w = score)) := by
      rw [← h2]
    refine ⟨hposs, ?_, ?_, ?_⟩
    · rw [hposs]
      exact List.filter_sublist _
    · intro w hw
      rw [hposs] at hw
      exact (List.mem_filter.mp hw).1
    · intro w hw hsc
      rw [hposs]
      exact List.mem_filter.mpr ⟨hw, by simp [hsc]⟩

/-- Witness for C2: two constant candidate words, winning feedback for the
first. -/
theorem respond_to_score_filters_witness :
    (Solver.mk [[0, 0, 0, 0, 0]] [] [[0, 0, 0, 0, 0], [1, 1, 1, 1, 1]] [] false
          Strategy.GROUPSIZE).possibilities
        = (Solver.new [] [[0, 0, 0, 0, 0], [1, 1, 1, 1, 1]] false
            Strategy.GROUPSIZE).possibilities.filter
            (fun w => decide (compute_score [0, 0, 0, 0, 0] w = 242)) ∧
      (Solver.mk [[0, 0, 0, 0, 0]] [] [[0, 0, 0, 0, 0], [1, 1, 1, 1, 1]] [] false
          Strategy.GROUPSIZE).possibilities.Sublist
        (Solver.new [] [[0, 0, 0, 0, 0], [1, 1, 1, 1, 1]] false
          Strategy.GROUPSIZE).possibilities ∧
      (∀ w ∈ (Solver.mk [[0, 0, 0, 0, 0]] [] [[0, 0, 0, 0, 0], [1, 1, 1, 1, 1]] [] false
          Strategy.GROUPSIZE).possibilities,
        w ∈ (Solver.new [] [[0, 0, 0, 0, 0], [1, 1, 1, 1, 1]] false
          Strategy.GROUPSIZE).possibilities) ∧
      (∀ w ∈ (Solver.new [] [[0, 0, 0, 0, 0], [1, 1, 1, 1, 1]] false
          Strategy.GROUPSIZE).possibilities,
        compute_score [0, 0, 0, 0, 0] w = 242 →
          w ∈ (Solver.mk [[0, 0, 0, 0, 0]] [] [[0, 0, 0, 0, 0], [1, 1, 1, 1, 1]] [] false
            Strategy.GROUPSIZE).possibilities) :=
  respond_to_score_filters
    (Solver.new [] [[0, 0, 0, 0, 0], [1, 1, 1, 1, 1]] false Strategy.GROUPSIZE)
    [0, 0, 0, 0, 0] 242 _ (by decide)

/-- C8: on a non-empty possibility set, respond_to_score hits the fatal "No
possibilities left" panic exactly when no remaining word scores the supplied
feedback against the guess; on a normal return the new possibility set is
non-empty. -/
theorem respond_to_score_panic_iff (s : Solver) (guess : Word) (score : DetailScore)
    (hne : s.possibilities ≠ []) :
    (s.respond_to_score guess score = none ↔
        ∀ w ∈ s.possibilities, compute_score guess w ≠ score) ∧
      ∀ s2, s.respond_to_score guess score = some s2 → s2.possibilities ≠ [] := by
  constructor
  · rw [Solver.respond_to_score]
    by_cases hlen : (s.possibilities.filter fun w =>
        decide (compute_score guess w = score)).length = 0
    · rw [if_pos hlen]
      have hfil : (s.possibilities.filter fun w =>
          decide (compute_score guess w = score)) = [] := List.length_eq_zero.mp hlen
      rw [List.filter_eq_nil_iff] at hfil
      constructor
      · intro _ w hw
        have := hfil w hw
        simpa using this
      · intro _
        rfl
    · rw [if_neg hlen]
      have hfil : (s.possibilities.filter fun w =>
          decide (compute_score guess w = score)) ≠ [] :=
        fun hh => hlen (by rw [hh]; rfl)
      rcases List.exists_mem_of_ne_nil _ hfil with ⟨w, hw⟩
      rcases List.mem_filter.mp hw with ⟨hw1, hw2⟩
      constructor
      · intro hcontra
        exact absurd hcontra (by simp)
      · intro hall
        exact ((hall w hw1) (by simpa using hw2)).elim
  · intro s2 h
    rcases respond_to_score_filters s guess score s2 h with ⟨hposs, _, _, _⟩
    rw [Solver.respond_to_score] at h
    by_cases hlen : (s.possibilities.filter fun w =>
        decide (compute_score guess w = score)).length = 0
    · rw [if_pos hlen] at h
      exact absurd h (by simp)
    · rw [hposs]
      intro hh
      exact hlen (by rw [hh]; rfl)

/-- Witness for C8: a two-word possibility set; feedback 0 (all absent)
matches nothing when guessing the first word, so the panic case fires, and
the winning feedback leaves a non-empty set. -/
theorem respond_to_score_panic_iff_witness :
    ((Solver.new [] [[0, 0, 0, 0, 0], [0, 0, 0, 0, 1]] false
          Strategy.GROUPSIZE).respond_to_score [0, 0, 0, 0, 0] 2 = none ↔
        ∀ w ∈ (Solver.new [] [[0, 0, 0, 0, 0], [0, 0, 0, 0, 1]] false
          Strategy.GROUPSIZE).possibilities, compute_score [0, 0, 0, 0, 0] w ≠ 2) ∧
      ∀ s2, (Solver.new [] [[0, 0, 0, 0, 0], [0, 0, 0, 0, 1]] false
          Strategy.GROUPSIZE).respond_to_score [0, 0, 0, 0, 0] 2 = some s2 →
        s2.possibilities ≠ [] :=
  respond_to_score_panic_iff
    (Solver.new [] [[0, 0, 0, 0, 0], [0, 0, 0, 0, 1]] false Strategy.GROUPSIZE)
    [0, 0, 0, 0, 0] 2 (by decide)

theorem parseLetter_none_of_not_mem (c : Char) (h : c ∉ LETTERS) :
    parseLetter c = none := by
  have ha : ¬c = 'a' := fun hh => h (by rw [hh]; simp [LETTERS])
  have hp : ¬c = 'p' := fun hh => h (by rw [hh]; simp [LETTERS])
  have hc : ¬c = 'c' := fun hh => h (by rw [hh]; simp [LETTERS])
  rw [parseLetter, if_neg ha, if_neg hc, if_neg hp]

theorem parseLetters_none_of_bad (s : List Char) (c : Char) (hc : c ∈ s)
    (hbad : parseLetter c = none) : parseLetters s = none := by
  induction s with
  | nil => exact absurd hc (List.not_mem_nil c)
  | cons x rest ih =>
    rcases List.mem_cons.mp hc with h | h
    · subst h
      rw [parseLetters, hbad]
    · rw [parseLetters, ih h]
      cases parseLetter x <;> rfl

set_option maxRecDepth 4096 in
/-- C9: every one of the 243 packed feedback values renders as exactly five
characters from LETTERS and parses back to itself (so the rendering and the
parse preserve position order); parsing fails on every character list that is
not exactly five characters from LETTERS. -/
theorem score_rendering_roundtrip :
    (∀ f : DetailScore, f < NUM_POSSIBLE_SCORES →
        (displayScore f).length = 5 ∧ (∀ c ∈ displayScore f, c ∈ LETTERS) ∧
          parse_score_string (displayScore f) = some f) ∧
      ∀ s : List Char, ¬(s.length = 5 ∧ ∀ c ∈ s, c ∈ LETTERS) →
        parse_score_string s = none := by
  constructor
  · decide
  · intro s hbad
    by_cases hl : s.length = 5
    · push_neg at hbad
      rcases hbad hl with ⟨c, hc, hcl⟩
      rw [parse_score_string, if_neg (fun hh => hh hl),
        parseLetters_none_of_bad s c hc (parseLetter_none_of_not_mem c hcl)]
      rfl
    · rw [parse_score_string, if_pos hl]

/-- Witness for C9: the packed value of pacca round-trips and a single
character x fails to parse. -/
theorem score_rendering_roundtrip_witness :
    ((displayScore 105).length = 5 ∧ (∀ c ∈ displayScore 105, c ∈ LETTERS) ∧
        parse_score_string (displayScore 105) = some 105) ∧
      parse_score_string ['x'] = none :=
  ⟨score_rendering_roundtrip.1 105 (by decide),
    score_rendering_roundtrip.2 ['x'] (by decide)⟩


set_option maxRecDepth 8192 in
/-- Counterexample to C3: with guess aaaaa, board one holding bbbbb and
ccccc (one all-absent bucket of size 2) and board two holding bbbbb alone
(largest bucket 1), the reduced size component is -1, the negation of the
smaller largest bucket, not -2, the negation of the larger (worst) one. -/
theorem reduce_eval_size_counterexample :
    maxGroup [0, 0, 0, 0, 0] [[1, 1, 1, 1, 1], [2, 2, 2, 2, 2]] = 2 ∧
      maxGroup [0, 0, 0, 0, 0] [[1, 1, 1, 1, 1]] = 1 ∧
      (reduce_eval (eval_guess [0, 0, 0, 0, 0] [[1, 1, 1, 1, 1], [2, 2, 2, 2, 2]])
          (eval_guess [0, 0, 0, 0, 0] [[1, 1, 1, 1, 1]])).size
        ≠ -(max (maxGroup [0, 0, 0, 0, 0] [[1, 1, 1, 1, 1], [2, 2, 2, 2, 2]])
              (maxGroup [0, 0, 0, 0, 0] [[1, 1, 1, 1, 1]]) : Int) := by
  refine ⟨by decide, by decide, ?_⟩
  decide

/-- C3 amended: reduce_eval adds the two distinct-bucket counts, and its
size component is the larger of the two negated sizes, i.e. the negation of
the smaller of the two boards' largest-bucket sizes (the joint metric
reflects the board whose worst case is better, not worse). -/
theorem reduce_eval_combines (g : Word) (P1 P2 : List Word) :
    (reduce_eval (eval_guess g P1) (eval_guess g P2)).count
        = (eval_guess g P1).count + (eval_guess g P2).count ∧
      (reduce_eval (eval_guess g P1) (eval_guess g P2)).size
        = -(min (maxGroup g P1) (maxGroup g P2) : Int) := by
  constructor
  · rfl
  · show max (-(maxGroup g P1 : Int)) (-(maxGroup g P2 : Int)) = _
    omega

theorem foldr_min_le_init (xs : List Nat) (a : Nat) : xs.foldr min a ≤ a := by
  induction xs with
  | nil => exact le_refl a
  | cons x rest ih => exact le_trans (min_le_right x _) ih

theorem foldr_min_init (xs : List Nat) (a b : Nat) :
    xs.foldr min (min a b) = min (xs.foldr min a) b := by
  induction xs with
  | nil => rfl
  | cons x rest ih =>
    simp only [List.foldr_cons, ih]
    omega

theorem countElimS_spec (guess : Word) (score : DetailScore) (m : Nat) :
    ∀ (l : List Word) (acc : Nat), acc ≤ m →
      (countElimS guess score m l acc = acc + countElimFull guess score l ∧
          countElimS guess score m l acc ≤ m) ∨
        (m < countElimS guess score m l acc ∧
          countElimS guess score m l acc ≤ acc + countElimFull guess score l) := by
  intro l
  induction l with
  | nil =>
    intro acc hacc
    exact Or.inl ⟨by simp [countElimS, countElimFull], hacc⟩
  | cons p rest ih =>
    intro acc hacc
    rw [countElimS]
    have hfull : countElimFull guess score (p :: rest)
        = (if compute_score guess p ≠ score then 1 else 0)
          + countElimFull guess score rest := by
      rw [countElimFull, countElimFull, List.countP_cons]
      by_cases hsc : compute_score guess p ≠ score <;> simp [hsc] <;> omega
    by_cases hb : m < (if compute_score guess p ≠ score then acc + 1 else acc)
    · rw [if_pos hb]
      refine Or.inr ⟨hb, ?_⟩
      rw [hfull]
      by_cases hsc : compute_score guess p ≠ score <;> simp [hsc] <;> omega
    · rw [if_neg hb]
      have hacc2 : (if compute_score guess p ≠ score then acc + 1 else acc) ≤ m := by omega
      rcases ih _ hacc2 with ⟨h1, h2⟩ | ⟨h1, h2⟩
      · refine Or.inl ⟨?_, h2⟩
        rw [h1, hfull]
        by_cases hsc : compute_score guess p ≠ score <;> simp [hsc] <;> omega
      · refine Or.inr ⟨h1, ?_⟩
        rw [hfull]
        by_cases hsc : compute_score guess p ≠ score <;> simp [hsc] at h2 ⊢ <;> omega

theorem scoreLoopS_spec (guess : Word) (possibilities : List Word) (maxMin : Nat) :
    ∀ (scores : List DetailScore) (m : Nat),
      ((scores.map fun score => countElimFull guess score possibilities).foldr min m
          ≤ scoreLoopS guess possibilities maxMin scores m) ∧
        (scoreLoopS guess possibilities maxMin scores m
            = (scores.map fun score => countElimFull guess score possibilities).foldr min m
          ∨ scoreLoopS guess possibilities maxMin scores m < maxMin) := by
  intro scores
  induction scores with
  | nil =>
    intro m
    exact ⟨le_refl m, Or.inl rfl⟩
  | cons score rest ih =>
    intro m
    rw [scoreLoopS]
    have hcnt := countElimS_spec guess score m possibilities 0 (Nat.zero_le m)
    have hm2 : (if countElimS guess score m possibilities 0 < m
          then countElimS guess score m possibilities 0 else m)
        = min m (countElimFull guess score possibilities) := by
      by_cases hlt : countElimS guess score m possibilities 0 < m
      · rw [if_pos hlt]
        rcases hcnt with ⟨h1, h2⟩ | ⟨h1, h2⟩ <;> simp only [Nat.zero_add] at h1 h2 <;> omega
      · rw [if_neg hlt]
        rcases hcnt with ⟨h1, h2⟩ | ⟨h1, h2⟩ <;> simp only [Nat.zero_add] at h1 h2 <;> omega
    have hfold : ((score :: rest).map fun sc =>
          countElimFull guess sc possibilities).foldr min m
        = (rest.map fun sc => countElimFull guess sc possibilities).foldr min
            (min m (countElimFull guess score possibilities)) := by
      simp only [List.map_cons, List.foldr_cons]
      rw [foldr_min_init]
      omega
    by_cases hbr : (if countElimS guess score m possibilities 0 < m
        then countElimS guess score m possibilities 0 else m) < maxMin
    · rw [if_pos hbr]
      constructor
      · rw [hfold, hm2]
        exact foldr_min_le_init _ _
      · right
        rw [hm2] at hbr ⊢
        exact hbr
    · rw [if_neg hbr]
      rcases ih (min m (countElimFull guess score possibilities)) with ⟨ih1, ih2⟩
      rw [hm2, hfold]
      exact ⟨ih1, ih2⟩

theorem guessLoopS_eq_full (possibilities : List Word)
    (history : List (Word × DetailScore)) (hard_mode : Bool) :
    ∀ (gl : List Word) (maxMin : Nat) (acc : List Word),
      guessLoopS possibilities history hard_mode gl maxMin acc
        = guessLoopFull possibilities history hard_mode gl maxMin acc := by
  intro gl
  induction gl with
  | nil => intro maxMin acc; rfl
  | cons g rest ih =>
    intro maxMin acc
    simp only [guessLoopS, guessLoopFull]
    by_cases hh : hard_mode = true ∧ ¬hardOk history g = true
    · rw [if_pos hh, if_pos hh, ih]
    · rw [if_neg hh, if_neg hh]
      rcases scoreLoopS_spec g possibilities maxMin all_possible USIZE_MAX with ⟨h1, h2 | h2⟩
      · have h3 : scoreLoopS g possibilities maxMin all_possible USIZE_MAX
            = minElimFull g possibilities := h2
        rw [h3, ih]
      · have hge : minElimFull g possibilities
            ≤ scoreLoopS g possibilities maxMin all_possible USIZE_MAX := h1
        have hn1 : ¬maxMin < scoreLoopS g possibilities maxMin all_possible USIZE_MAX := by
          omega
        have hn2 : ¬scoreLoopS g possibilities maxMin all_possible USIZE_MAX = maxMin := by
          omega
        have hn3 : ¬maxMin < minElimFull g possibilities := by omega
        have hn4 : ¬minElimFull g possibilities = maxMin := by omega
        rw [if_neg hn1, if_neg hn2, if_neg hn1, if_neg hn3, if_neg hn4, if_neg hn3, ih]

/-- The two early-termination breaks of next_guess_groupsize do not change
the selected guess: the pruned implementation equals the unpruned reference
on every solver state. -/
theorem next_guess_groupsize_eq_full (s : Solver) :
    s.next_guess_groupsize = s.next_guess_groupsize_full := by
  rw [Solver.next_guess_groupsize, Solver.next_guess_groupsize_full,
    guessLoopS_eq_full]

theorem guessLoopFull_spec (possibilities : List Word)
    (history : List (Word × DetailScore)) (hard_mode : Bool) :
    ∀ (gl : List Word) (maxMin : Nat) (acc : List Word),
      (∀ g ∈ acc, minElimFull g possibilities = maxMin ∧
        (hard_mode = true → hardOk history g = true)) →
      maxMin ≤ (guessLoopFull possibilities history hard_mode gl maxMin acc).1 ∧
        (∀ g ∈ gl, (hard_mode = true → hardOk history g = true) →
          minElimFull g possibilities
            ≤ (guessLoopFull possibilities history hard_mode gl maxMin acc).1) ∧
        (∀ g ∈ (guessLoopFull possibilities history hard_mode gl maxMin acc).2,
          (g ∈ acc ∨ g ∈ gl) ∧
            minElimFull g possibilities
              = (guessLoopFull possibilities history hard_mode gl maxMin acc).1 ∧
            (hard_mode = true → hardOk history g = true)) := by
  intro gl
  induction gl with
  | nil =>
    intro maxMin acc hacc
    refine ⟨le_refl _, by intro g hg; exact absurd hg (List.not_mem_nil g), ?_⟩
    intro g hg
    exact ⟨Or.inl hg, (hacc g hg).1, (hacc g hg).2⟩
  | cons g0 rest ih =>
    intro maxMin acc hacc
    simp only [guessLoopFull]
    by_cases hh : hard_mode = true ∧ ¬hardOk history g0 = true
    · rw [if_pos hh]
      rcases ih maxMin acc hacc with ⟨i1, i2, i3⟩
      refine ⟨i1, ?_, ?_⟩
      · intro g hg hok
        rcases List.mem_cons.mp hg with h | h
        · subst h
          exact absurd (hok hh.1) hh.2
        · exact i2 g h hok
      · intro g hg
        rcases i3 g hg with ⟨hm, h2, h3⟩
        exact ⟨hm.elim Or.inl (fun hr => Or.inr (List.mem_cons_of_mem _ hr)), h2, h3⟩
    · rw [if_neg hh]
      have hok0 : hard_mode = true → hardOk history g0 = true := by
        intro hhm
        by_cases hx : hardOk history g0 = true
        · exact hx
        · exact absurd ⟨hhm, hx⟩ hh
      by_cases hcmp : maxMin < minElimFull g0 possibilities
      · rw [if_pos hcmp, if_pos hcmp]
        have hacc2 : ∀ g ∈ [g0], minElimFull g possibilities
            = minElimFull g0 possibilities ∧
            (hard_mode = true → hardOk history g = true) := by
          intro g hg
          rcases List.mem_singleton.mp hg with rfl
          exact ⟨rfl, hok0⟩
        rcases ih (minElimFull g0 possibilities) [g0] hacc2 with ⟨i1, i2, i3⟩
        refine ⟨le_trans (le_of_lt hcmp) i1, ?_, ?_⟩
        · intro g hg hok
          rcases List.mem_cons.mp hg with h | h
          · subst h
            exact i1
          · exact i2 g h hok
        · intro g hg
          rcases i3 g hg with ⟨hm, h2, h3⟩
          refine ⟨?_, h2, h3⟩
          rcases hm with h | h
          · rcases List.mem_singleton.mp h with rfl
            exact Or.inr (List.mem_cons_self _ _)
          · exact Or.inr (List.mem_cons_of_mem _ h)
      · rw [if_neg hcmp, if_neg hcmp]
        by_cases heq : minElimFull g0 possibilities = maxMin
        · rw [if_pos heq]
          have hacc2 : ∀ g ∈ acc ++ [g0], minElimFull g possibilities = maxMin ∧
              (hard_mode = true → hardOk history g = true) := by
            intro g hg
            rcases List.mem_append.mp hg with h | h
            · exact hacc g h
            · rcases List.mem_singleton.mp h with rfl
              exact ⟨heq, hok0⟩
          rcases ih maxMin (acc ++ [g0]) hacc2 with ⟨i1, i2, i3⟩
          refine ⟨i1, ?_, ?_⟩
          · intro g hg hok
            rcases List.mem_cons.mp hg with h | h
            · subst h
              exact le_trans (le_of_eq heq) i1
            · exact i2 g h hok
          · intro g hg
            rcases i3 g hg with ⟨hm, h2, h3⟩
            refine ⟨?_, h2, h3⟩
            rcases hm with h | h
            · rcases List.mem_append.mp h with h4 | h4
              · exact Or.inl h4
              · rcases List.mem_singleton.mp h4 with rfl
                exact Or.inr (List.mem_cons_self _ _)
            · exact Or.inr (List.mem_cons_of_mem _ h)
        · rw [if_neg heq]
          rcases ih maxMin acc hacc with ⟨i1, i2, i3⟩
          refine ⟨i1, ?_, ?_⟩
          · intro g hg hok
            rcases List.mem_cons.mp hg with h | h
            · subst h
              omega
            · exact i2 g h hok
          · intro g hg
            rcases i3 g hg with ⟨hm, h2, h3⟩
            exact ⟨hm.elim Or.inl (fun hr => Or.inr (List.mem_cons_of_mem _ hr)), h2, h3⟩


set_option maxRecDepth 100000 in
/-- Counterexample to C4 as stated: on exCatalog every word ties on the
largest bucket (size 2, negated -2), next_guess under GroupSize returns
abcdd, yet abcde is an allowed catalog guess with the same largest bucket
and strictly more distinct buckets (4 against 3), so the returned guess
does not maximize (negated largest bucket, distinct bucket count)
lexicographically: no distinct-bucket tiebreak exists in the code. -/
theorem next_guess_groupsize_no_count_tiebreak :
    (Solver.new [] exCatalog false Strategy.GROUPSIZE).next_guess
        = some [0, 1, 2, 3, 3] ∧
      [0, 1, 2, 3, 4] ∈ (Solver.new [] exCatalog false Strategy.GROUPSIZE).solution_list
          ++ (Solver.new [] exCatalog false Strategy.GROUPSIZE).guessable_list ∧
      (eval_guess [0, 1, 2, 3, 4] exCatalog).size
        = (eval_guess [0, 1, 2, 3, 3] exCatalog).size ∧
      (eval_guess [0, 1, 2, 3, 3] exCatalog).count
        < (eval_guess [0, 1, 2, 3, 4] exCatalog).count := by
  exact ⟨by decide, by decide, by decide, by decide⟩

/-- C4 amended: with more than one possibility left, under GroupSize
next_guess returns a catalog guess passing the hard-mode filter that
maximizes only the first component, the worst-case elimination count
minElimFull (equivalently, minimizes the largest feedback bucket); the
distinct-bucket count is not consulted at all. -/
theorem next_guess_groupsize_maximizes_worst_case (s : Solver) (g : Word)
    (hstrat : s.strategy = Strategy.GROUPSIZE)
    (hlen : 1 < s.possibilities.length)
    (h : s.next_guess = some g) :
    g ∈ s.solution_list ++ s.guessable_list ∧
      (s.hard_mode = true → hardOk s.history g = true) ∧
      ∀ g2 ∈ s.solution_list ++ s.guessable_list,
        (s.hard_mode = true → hardOk s.history g2 = true) →
        minElimFull g2 s.possibilities ≤ minElimFull g s.possibilities := by
  rw [Solver.next_guess, if_neg (show ¬s.possibilities.length = 1 by omega), hstrat,
    next_guess_groupsize_eq_full] at h
  simp only [Solver.next_guess_groupsize_full] at h
  rcases guessLoopFull_spec s.possibilities s.history s.hard_mode
      (s.solution_list ++ s.guessable_list) 0 []
      (by intro g1 hg1; exact absurd hg1 (List.not_mem_nil g1)) with ⟨_, i2, i3⟩
  have hmem : g ∈ (guessLoopFull s.possibilities s.history s.hard_mode
      (s.solution_list ++ s.guessable_list) 0 []).2 := by
    rcases hfind : (guessLoopFull s.possibilities s.history s.hard_mode
        (s.solution_list ++ s.guessable_list) 0 []).2.find?
        (fun x => decide (x ∈ s.possibilities)) with _ | g2
    · rw [hfind] at h
      have h2 : (guessLoopFull s.possibilities s.history s.hard_mode
          (s.solution_list ++ s.guessable_list) 0 []).2.getLast? = some g := h
      rcases List.mem_getLast?_eq_getLast (Option.mem_def.mpr h2) with ⟨hne, hgl⟩
      rw [hgl]
      exact List.getLast_mem hne
    · rw [hfind] at h
      have h2 : some g2 = some g := h
      rw [← Option.some.inj h2]
      exact List.mem_of_find?_eq_some hfind
  rcases i3 g hmem with ⟨hm, hval, hok⟩
  refine ⟨?_, hok, ?_⟩
  · rcases hm with h1 | h1
    · exact absurd h1 (List.not_mem_nil g)
    · exact h1
  · intro g2 hg2 hok2
    rw [hval]
    exact i2 g2 hg2 hok2

set_option maxRecDepth 100000 in
/-- Witness for the amended C4 on exCatalog. -/
theorem next_guess_groupsize_maximizes_worst_case_witness :
    [0, 1, 2, 3, 3] ∈ (Solver.new [] exCatalog false Strategy.GROUPSIZE).solution_list
        ++ (Solver.new [] exCatalog false Strategy.GROUPSIZE).guessable_list ∧
      ((Solver.new [] exCatalog false Strategy.GROUPSIZE).hard_mode = true →
        hardOk (Solver.new [] exCatalog false Strategy.GROUPSIZE).history
          [0, 1, 2, 3, 3] = true) ∧
      ∀ g2 ∈ (Solver.new [] exCatalog false Strategy.GROUPSIZE).solution_list
          ++ (Solver.new [] exCatalog false Strategy.GROUPSIZE).guessable_list,
        ((Solver.new [] exCatalog false Strategy.GROUPSIZE).hard_mode = true →
          hardOk (Solver.new [] exCatalog false Strategy.GROUPSIZE).history g2 = true) →
        minElimFull g2 (Solver.new [] exCatalog false Strategy.GROUPSIZE).possibilities
          ≤ minElimFull [0, 1, 2, 3, 3]
              (Solver.new [] exCatalog false Strategy.GROUPSIZE).possibilities :=
  next_guess_groupsize_maximizes_worst_case
    (Solver.new [] exCatalog false Strategy.GROUPSIZE) [0, 1, 2, 3, 3]
    rfl (by decide) (by decide)

theorem absGuessLoop_hard_false (target : Word) (possibilities : List Word)
    (history : List (Word × DetailScore)) :
    ∀ (gl : List Word) (best : Nat) (acc : List Word),
      absGuessLoop target possibilities history false gl best acc
        = absGuessLoop target possibilities [] false gl best acc := by
  intro gl
  induction gl with
  | nil => intro best acc; rfl
  | cons g rest ih =>
    intro best acc
    simp only [absGuessLoop]
    by_cases ht : g = target
    · rw [if_pos ht, if_pos ht, ih]
    · rw [if_neg ht, if_neg ht]
      have hf : ¬(false = true ∧ ¬hardOk history g = true) := by simp
      have hf2 : ¬(false = true ∧ ¬hardOk [] g = true) := by simp
      rw [if_neg hf, if_neg hf2]
      rcases hX : scoreLoopB g possibilities best all_possible USIZE_MAX none
        with _ | ⟨minE, _ | st⟩ <;> simp only [hX]
      · exact ih best acc
      · exact ih best acc
      · by_cases hcs : compute_score g target ≠ st
        · rw [if_pos hcs, if_pos hcs, ih]
        · rw [if_neg hcs, if_neg hcs, ih]

theorem replayStack_cons (s0 : AbsSolver) (level : List Word)
    (stack : List (List Word)) :
    replayStack s0 (level :: stack)
      = match replayStack s0 stack with
        | none => none
        | some s => replayStep s0.target_word s level := rfl

theorem replayStep_exAbs (h : List (Word × DetailScore)) :
    replayStep [0, 0, 1, 1, 2] { exAbsSolver with history := h } [[3, 3, 3, 3, 3]]
      = some { exAbsSolver with history := h ++ [([3, 3, 3, 3, 3], 0)] } := rfl

theorem replay_exAbs : ∀ n : Nat,
    replayStack exAbsSolver (List.replicate n [[3, 3, 3, 3, 3]])
      = some { exAbsSolver with history := List.replicate n ([3, 3, 3, 3, 3], 0) } := by
  intro n
  induction n with
  | zero => rfl
  | succ n ih =>
    rw [List.replicate_succ, replayStack_cons, ih]
    show replayStep [0, 0, 1, 1, 2] _ [[3, 3, 3, 3, 3]] = _
    rw [replayStep_exAbs, ← List.replicate_succ']

set_option maxRecDepth 100000 in
theorem next_guess_exAbs (h : List (Word × DetailScore)) :
    AbsSolver.next_guess { exAbsSolver with history := h } = [[3, 3, 3, 3, 3]] := by
  rw [AbsSolver.next_guess]
  have hlen : ¬({ exAbsSolver with history := h } : AbsSolver).possibilities.length = 1 := by
    show ¬(([[0, 0, 0, 0, 0], [1, 1, 1, 1, 1], [0, 0, 1, 1, 2]] : List Word).length = 1)
    decide
  rw [if_neg hlen]
  show (absGuessLoop [0, 0, 1, 1, 2] exAbsSolver.possibilities h false
    (exAbsSolver.guessable_list ++ exAbsSolver.solutions_list) 0 []).2 = _
  rw [absGuessLoop_hard_false]
  decide

theorem solveStep_exAbs (n : Nat) :
    solveStep exAbsSolver (List.replicate n [[3, 3, 3, 3, 3]])
      = Sum.inr (List.replicate (n + 1) [[3, 3, 3, 3, 3]]) := by
  rw [show (List.replicate (n + 1) [[3, 3, 3, 3, 3]] : List (List Word))
    = [[3, 3, 3, 3, 3]] :: List.replicate n [[3, 3, 3, 3, 3]] from List.replicate_succ _ _]
  simp only [solveStep, replay_exAbs n, next_guess_exAbs]
  rfl

/-- C6: the backtracking search of the absurdle solver does not terminate
for every catalog.  On the catalog with solutions aaaaa, bbbbb, aabbc,
guessable word ddddd and target aabbc, the judge score of ddddd is
all-absent, which eliminates nothing and matches the target, while both
other candidate guesses fail the target check; so every round pushes ddddd
again with an unchanged possibility set: after n rounds the loop is still
running with a stack of n copies of the level containing only ddddd, and
neither the win nor the total-failure outcome is ever reached. -/
theorem solve_diverges : ∀ n : Nat,
    solveStepN exAbsSolver n = Sum.inr (List.replicate n [[3, 3, 3, 3, 3]]) := by
  intro n
  induction n with
  | zero => rfl
  | succ n ih =>
    simp only [solveStepN, ih]
    exact solveStep_exAbs n

set_option maxRecDepth 100000
set_option maxHeartbeats 1000000

theorem ent_low_bits : ∀ a : Nat, a < 243 →
    absurdle_entropy_lost a % 1024
      = a % 3 + 4 * (a / 3 % 3) + 16 * (a / 3 / 3 % 3) + 64 * (a / 3 / 3 / 3 % 3)
        + 256 * (a / 3 / 3 / 3 / 3 % 3) := by decide

theorem ent_inj (a b : Nat) (ha : a < 243) (hb : b < 243)
    (h : absurdle_entropy_lost a = absurdle_entropy_lost b) : a = b := by
  have h1 := ent_low_bits a ha
  have h2 := ent_low_bits b hb
  rw [h] at h1
  have h3 := h2.symm.trans h1
  clear h1 h2 h
  omega

theorem foldr_min_mono_init (xs : List Nat) (a b : Nat) (h : a ≤ b) :
    xs.foldr min a ≤ xs.foldr min b := by
  induction xs with
  | nil => exact h
  | cons x rest ih => simp only [List.foldr_cons]; omega

theorem foldr_min_append_single (P : List Nat) (x a : Nat) :
    (P ++ [x]).foldr min a = min (P.foldr min a) x := by
  induction P with
  | nil => simp only [List.nil_append, List.foldr_cons, List.foldr_nil]; omega
  | cons p rest ih => simp only [List.cons_append, List.foldr_cons, ih]; omega

theorem foldr_min_le_mem (xs : List Nat) (a x : Nat) (h : x ∈ xs) :
    xs.foldr min a ≤ x := by
  induction xs with
  | nil => exact absurd h (List.not_mem_nil x)
  | cons y rest ih =>
    rcases List.mem_cons.mp h with h1 | h1
    · subst h1
      simp only [List.foldr_cons]
      omega
    · have := ih h1
      simp only [List.foldr_cons]
      omega

theorem countElimB_spec (guess : Word) (score : DetailScore) (m : Nat) :
    ∀ (l : List Word) (acc : Nat), acc ≤ m →
      (countElimB guess score m l acc = some (acc + countElimFull guess score l) ∧
          acc + countElimFull guess score l ≤ m) ∨
        (countElimB guess score m l acc = none ∧
          m < acc + countElimFull guess score l) := by
  intro l
  induction l with
  | nil =>
    intro acc hacc
    exact Or.inl ⟨by simp [countElimB, countElimFull], by simpa [countElimFull] using hacc⟩
  | cons p rest ih =>
    intro acc hacc
    rw [countElimB]
    have hfull : countElimFull guess score (p :: rest)
        = (if compute_score guess p ≠ score then 1 else 0)
          + countElimFull guess score rest := by
      rw [countElimFull, countElimFull, List.countP_cons]
      by_cases hsc : compute_score guess p ≠ score <;> simp [hsc] <;> omega
    by_cases hb : m < (if compute_score guess p ≠ score then acc + 1 else acc)
    · rw [if_pos hb]
      refine Or.inr ⟨rfl, ?_⟩
      rw [hfull]
      by_cases hsc : compute_score guess p ≠ score
      · rw [if_pos hsc]
        rw [if_pos hsc] at hb
        omega
      · rw [if_neg hsc]
        rw [if_neg hsc] at hb
        omega
    · rw [if_neg hb]
      have hacc2 : (if compute_score guess p ≠ score then acc + 1 else acc) ≤ m := by omega
      rcases ih _ hacc2 with ⟨h1, h2⟩ | ⟨h1, h2⟩
      · refine Or.inl ⟨?_, ?_⟩
        · rw [h1, hfull]
          by_cases hsc : compute_score guess p ≠ score <;> simp [hsc] <;> ring_nf
        · rw [hfull]
          by_cases hsc : compute_score guess p ≠ score <;> simp [hsc] at h2 ⊢ <;> omega
      · refine Or.inr ⟨h1, ?_⟩
        rw [hfull]
        by_cases hsc : compute_score guess p ≠ score <;> simp [hsc] at h2 ⊢ <;> omega

theorem scoreLoopB_spec (guess : Word) (possibilities : List Word) (best : Nat)
    (hlen : possibilities.length < USIZE_MAX) :
    ∀ (rest processed : List DetailScore) (m : Nat) (st : Option DetailScore),
      (∀ x ∈ processed ++ rest, x < 243) →
      m = (processed.map fun sc =>
        countElimFull guess sc possibilities).foldr min USIZE_MAX →
      ¬m < best →
      (st = none → processed = []) →
      (∀ s, st = some s → IsJudgeScore guess possibilities processed s ∧
        countElimFull guess s possibilities = m) →
      (match scoreLoopB guess possibilities best rest m st with
        | none =>
          (((processed ++ rest).map fun sc =>
            countElimFull guess sc possibilities).foldr min USIZE_MAX) < best
        | some r =>
          r.1 = ((processed ++ rest).map fun sc =>
              countElimFull guess sc possibilities).foldr min USIZE_MAX ∧
            ¬r.1 < best ∧
            (r.2 = none → processed ++ rest = []) ∧
            ∀ s, r.2 = some s →
              IsJudgeScore guess possibilities (processed ++ rest) s ∧
                countElimFull guess s possibilities = r.1) := by
  intro rest
  induction rest with
  | nil =>
    intro processed m st hsc hm hbest hstn hsts
    simp only [scoreLoopB, List.append_nil]
    exact ⟨hm, hbest, hstn, hsts⟩
  | cons score rest ih =>
    intro processed m st hsc hm hbest hstn hsts
    have hE : countElimFull guess score possibilities ≤ possibilities.length :=
      List.countP_le_length _
    have hscore243 : score < 243 := hsc score (by simp)
    simp only [scoreLoopB]
    rcases countElimB_spec guess score m possibilities 0 (Nat.zero_le m)
      with ⟨hcb, hcb2⟩ | ⟨hcb, hcb2⟩
    · -- the score completed its count
      simp only [Nat.zero_add] at hcb hcb2
      simp only [hcb, Nat.zero_add]
      have hfoldsingle : ((processed ++ [score]).map fun sc =>
          countElimFull guess sc possibilities).foldr min USIZE_MAX
          = min m (countElimFull guess score possibilities) := by
        rw [List.map_append]
        simp only [List.map_cons, List.map_nil]
        rw [foldr_min_append_single, ← hm]
      by_cases hbr : (if countElimFull guess score possibilities < m
          then countElimFull guess score possibilities else m) < best
      · rw [if_pos hbr]
        have hm2min : (if countElimFull guess score possibilities < m
            then countElimFull guess score possibilities else m)
            = min m (countElimFull guess score possibilities) := by
          by_cases h : countElimFull guess score possibilities < m
          · rw [if_pos h]
            omega
          · rw [if_neg h]
            omega
        have hfold : ((processed ++ score :: rest).map fun sc =>
            countElimFull guess sc possibilities).foldr min USIZE_MAX
            ≤ min m (countElimFull guess score possibilities) := by
          have h1 : processed ++ score :: rest = (processed ++ [score]) ++ rest := by
            simp
          rw [h1, List.map_append, List.foldr_append]
          have h2 : ((rest.map fun sc =>
              countElimFull guess sc possibilities).foldr min USIZE_MAX) ≤ USIZE_MAX :=
            foldr_min_le_init _ _
          have h3 := foldr_min_mono_init ((processed ++ [score]).map fun sc =>
            countElimFull guess sc possibilities) _ _ h2
          exact le_trans h3 (le_of_eq hfoldsingle)
        omega
      · rw [if_neg hbr]
        by_cases hem : countElimFull guess score possibilities < m
        · rw [if_pos hem, if_pos hem]
          rw [if_pos hem] at hbr
          have hm2 : countElimFull guess score possibilities
              = ((processed ++ [score]).map fun sc =>
                countElimFull guess sc possibilities).foldr min USIZE_MAX := by
            rw [hfoldsingle]
            omega
          have hsc2 : ∀ x ∈ (processed ++ [score]) ++ rest, x < 243 := by
            intro x hx
            apply hsc
            simp only [List.append_assoc, List.singleton_append] at hx
            exact hx
          have hstn2 : (some score : Option DetailScore) = none →
              processed ++ [score] = [] := by
            intro hcontra
            exact absurd hcontra (by simp)
          have hsts2 : ∀ s, (some score : Option DetailScore) = some s →
              IsJudgeScore guess possibilities (processed ++ [score]) s ∧
                countElimFull guess s possibilities
                  = countElimFull guess score possibilities := by
            intro s hs
            rcases Option.some.inj hs with rfl
            refine ⟨⟨by simp, ?_, ?_⟩, rfl⟩
            · intro sc hscm
              rcases List.mem_append.mp hscm with h1 | h1
              · have h2 := foldr_min_le_mem ((processed).map fun sc =>
                  countElimFull guess sc possibilities) USIZE_MAX
                  (countElimFull guess sc possibilities)
                  (List.mem_map_of_mem _ h1)
                omega
              · rcases List.mem_singleton.mp h1 with rfl
                exact le_refl _
            · intro sc hscm htieeq
              rcases List.mem_append.mp hscm with h1 | h1
              · exfalso
                have h2 := foldr_min_le_mem ((processed).map fun sc =>
                  countElimFull guess sc possibilities) USIZE_MAX
                  (countElimFull guess sc possibilities)
                  (List.mem_map_of_mem _ h1)
                omega
              · rcases List.mem_singleton.mp h1 with rfl
                exact Or.inl rfl
          have hres := ih (processed ++ [score])
            (countElimFull guess score possibilities) (some score) hsc2 hm2 hbr
            hstn2 hsts2
          rw [List.append_assoc, List.singleton_append] at hres
          exact hres
        · rw [if_neg hem, if_neg hem]
          rw [if_neg hem] at hbr
          have heq : countElimFull guess score possibilities = m := by omega
          rw [if_pos heq]
          rcases st with _ | s
          · exfalso
            have hp := hstn rfl
            have hmm : m = USIZE_MAX := by rw [hm, hp]; rfl
            omega
          · simp only [tieBreak]
            rcases hsts s rfl with ⟨⟨hmem, hmin, htie⟩, helim⟩
            have hs243 : s < 243 := hsc s (List.mem_append.mpr (Or.inl hmem))
            have hm2 : m = ((processed ++ [score]).map fun sc =>
                countElimFull guess sc possibilities).foldr min USIZE_MAX := by
              rw [hfoldsingle]
              omega
            have hsc2 : ∀ x ∈ (processed ++ [score]) ++ rest, x < 243 := by
              intro x hx
              apply hsc
              simp only [List.append_assoc, List.singleton_append] at hx
              exact hx
            by_cases hent : absurdle_entropy_lost score < absurdle_entropy_lost s
            · rw [if_pos hent]
              have hstn2 : (some score : Option DetailScore) = none →
                  processed ++ [score] = [] := by
                intro hcontra
                exact absurd hcontra (by simp)
              have hsts2 : ∀ s2, (some score : Option DetailScore) = some s2 →
                  IsJudgeScore guess possibilities (processed ++ [score]) s2 ∧
                    countElimFull guess s2 possibilities = m := by
                intro s2 hs2
                rcases Option.some.inj hs2 with rfl
                refine ⟨⟨by simp, ?_, ?_⟩, heq⟩
                · intro sc hscm
                  rcases List.mem_append.mp hscm with h1 | h1
                  · have h2 := foldr_min_le_mem ((processed).map fun sc =>
                      countElimFull guess sc possibilities) USIZE_MAX
                      (countElimFull guess sc possibilities)
                      (List.mem_map_of_mem _ h1)
                    omega
                  · rcases List.mem_singleton.mp h1 with rfl
                    exact le_refl _
                · intro sc hscm htieeq
                  rcases List.mem_append.mp hscm with h1 | h1
                  · rcases htie sc h1 (by omega) with h3 | h3
                    · subst h3
                      exact Or.inr hent
                    · exact Or.inr (lt_trans hent h3)
                  · rcases List.mem_singleton.mp h1 with rfl
                    exact Or.inl rfl
              have hres := ih (processed ++ [score]) m (some score) hsc2 hm2 hbr
                hstn2 hsts2
              rw [List.append_assoc, List.singleton_append] at hres
              exact hres
            · rw [if_neg hent]
              have hstn2 : (some s : Option DetailScore) = none →
                  processed ++ [score] = [] := by
                intro hcontra
                exact absurd hcontra (by simp)
              have hsts2 : ∀ s2, (some s : Option DetailScore) = some s2 →
                  IsJudgeScore guess possibilities (processed ++ [score]) s2 ∧
                    countElimFull guess s2 possibilities = m := by
                intro s2 hs2
                rcases Option.some.inj hs2 with rfl
                refine ⟨⟨List.mem_append.mpr (Or.inl hmem), ?_, ?_⟩, helim⟩
                · intro sc hscm
                  rcases List.mem_append.mp hscm with h1 | h1
                  · exact hmin sc h1
                  · rcases List.mem_singleton.mp h1 with rfl
                    omega
                · intro sc hscm htieeq
                  rcases List.mem_append.mp hscm with h1 | h1
                  · exact htie sc h1 htieeq
                  · rcases List.mem_singleton.mp h1 with rfl
                    by_cases hee : absurdle_entropy_lost s = absurdle_entropy_lost sc
                    · exact Or.inl (ent_inj s sc hs243 hscore243 hee)
                    · refine Or.inr ?_
                      omega
              have hres := ih (processed ++ [score]) m (some s) hsc2 hm2 hbr
                hstn2 hsts2
              rw [List.append_assoc, List.singleton_append] at hres
              exact hres
    · -- the score broke out early: skipped entirely
      simp only [Nat.zero_add] at hcb2
      simp only [hcb]
      have hm2 : m = ((processed ++ [score]).map fun sc =>
          countElimFull guess sc possibilities).foldr min USIZE_MAX := by
        rw [List.map_append]
        simp only [List.map_cons, List.map_nil]
        rw [foldr_min_append_single, ← hm]
        omega
      have hsc2 : ∀ x ∈ (processed ++ [score]) ++ rest, x < 243 := by
        intro x hx
        apply hsc
        simp only [List.append_assoc, List.singleton_append] at hx
        exact hx
      have hstn2 : st = none → processed ++ [score] = [] := by
        intro hn
        exfalso
        have hp := hstn hn
        have hmm : m = USIZE_MAX := by rw [hm, hp]; rfl
        omega
      have hsts2 : ∀ s, st = some s →
          IsJudgeScore guess possibilities (processed ++ [score]) s ∧
            countElimFull guess s possibilities = m := by
        intro s hs
        rcases hsts s hs with ⟨⟨hmem, hmin, htie⟩, helim⟩
        refine ⟨⟨List.mem_append.mpr (Or.inl hmem), ?_, ?_⟩, helim⟩
        · intro sc hscm
          rcases List.mem_append.mp hscm with h1 | h1
          · exact hmin sc h1
          · rcases List.mem_singleton.mp h1 with rfl
            omega
        · intro sc hscm htieeq
          rcases List.mem_append.mp hscm with h1 | h1
          · exact htie sc h1 htieeq
          · rcases List.mem_singleton.mp h1 with rfl
            exfalso
            omega
      have hres := ih (processed ++ [score]) m st hsc2 hm2 hbest hstn2 hsts2
      rw [List.append_assoc, List.singleton_append] at hres
      exact hres

theorem absGuessLoop_sound (target : Word) (possibilities : List Word)
    (history : List (Word × DetailScore)) (hard_mode : Bool)
    (hlen : possibilities.length < USIZE_MAX) :
    ∀ (gl : List Word) (best : Nat) (acc : List Word),
      best ≤ USIZE_MAX →
      (∀ g ∈ acc, ∃ st, IsJudgeScore g possibilities all_possible st ∧
        compute_score g target = st) →
      ∀ g ∈ (absGuessLoop target possibilities history hard_mode gl best acc).2,
        ∃ st, IsJudgeScore g possibilities all_possible st ∧
          compute_score g target = st := by
  intro gl
  induction gl with
  | nil =>
    intro best acc hbest hacc
    exact hacc
  | cons g0 rest ih =>
    intro best acc hbest hacc
    simp only [absGuessLoop]
    by_cases ht : g0 = target
    · rw [if_pos ht]
      exact ih best acc hbest hacc
    · rw [if_neg ht]
      by_cases hh : hard_mode = true ∧ ¬hardOk history g0 = true
      · rw [if_pos hh]
        exact ih best acc hbest hacc
      · rw [if_neg hh]
        have hspec := scoreLoopB_spec g0 possibilities best hlen all_possible []
          USIZE_MAX none
          (by
            intro x hx
            simp only [List.nil_append] at hx
            simpa [all_possible, NUM_POSSIBLE_SCORES, List.mem_range] using hx)
          rfl (by omega) (fun _ => rfl)
          (by intro s hs; exact absurd hs (by simp))
        rcases hres : scoreLoopB g0 possibilities best all_possible USIZE_MAX none
          with _ | ⟨minE, stO⟩
        · simp only [hres]
          exact ih best acc hbest hacc
        · simp only [hres] at hspec ⊢
          simp only [List.nil_append] at hspec
          rcases stO with _ | st
          · exact ih best acc hbest hacc
          · rcases hspec with ⟨hs1, hs2, _, hs4⟩
            show ∀ g ∈ (if compute_score g0 target ≠ st then
                absGuessLoop target possibilities history hard_mode rest best acc
              else
                absGuessLoop target possibilities history hard_mode rest
                  (if best < minE then minE else best)
                  (if minE = (if best < minE then minE else best)
                    then acc ++ [g0] else acc)).2,
              ∃ st2, IsJudgeScore g possibilities all_possible st2 ∧
                compute_score g target = st2
            by_cases hcs : compute_score g0 target ≠ st
            · rw [if_pos hcs]
              exact ih best acc hbest hacc
            · rw [if_neg hcs]
              have hjudge := hs4 st rfl
              have hminE : minE ≤ USIZE_MAX := by
                rw [hs1]
                exact foldr_min_le_init _ _
              have hbest2 : (if best < minE then minE else best) ≤ USIZE_MAX := by
                by_cases h : best < minE
                · rw [if_pos h]
                  exact hminE
                · rw [if_neg h]
                  exact hbest
              have hacc2 : ∀ g ∈ (if minE = (if best < minE then minE else best)
                  then acc ++ [g0] else acc),
                  ∃ stx, IsJudgeScore g possibilities all_possible stx ∧
                    compute_score g target = stx := by
                intro g hg
                by_cases hc2 : minE = (if best < minE then minE else best)
                · rw [if_pos hc2] at hg
                  rcases List.mem_append.mp hg with h1 | h1
                  · exact hacc g h1
                  · rcases List.mem_singleton.mp h1 with rfl
                    exact ⟨st, hjudge.1, not_not.mp hcs⟩
                · rw [if_neg hc2] at hg
                  exact hacc g hg
              exact ih _ _ hbest2 hacc2

theorem LetterScore.toNat_le (l : LetterScore) : l.toNat ≤ 2 := by
  cases l <;> decide

theorem pack_foldl_lt : ∀ (ms : List LetterScore) (acc : Nat),
    ms.foldl (fun num l => num * 3 + l.toNat) acc < (acc + 1) * 3 ^ ms.length := by
  intro ms
  induction ms with
  | nil =>
    intro acc
    simp
  | cons m rest ih =>
    intro acc
    simp only [List.foldl_cons, List.length_cons]
    have h1 := ih (acc * 3 + m.toNat)
    have h2 : (acc * 3 + m.toNat + 1) * 3 ^ rest.length
        ≤ (acc + 1) * 3 ^ (rest.length + 1) := by
      have h3 := LetterScore.toNat_le m
      have h4 : acc * 3 + m.toNat + 1 ≤ (acc + 1) * 3 := by omega
      calc (acc * 3 + m.toNat + 1) * 3 ^ rest.length
          ≤ ((acc + 1) * 3) * 3 ^ rest.length := Nat.mul_le_mul_right _ h4
        _ = (acc + 1) * 3 ^ (rest.length + 1) := by ring
    omega

theorem scoreList_length_le (g p : Word) : (scoreList g p).length ≤ p.length := by
  show (pass2 ((pass1 (g.zip p) (countsOf p)).1.zip g) (pass1 (g.zip p) (countsOf p)).2).length
    ≤ p.length
  rw [pass2_length, List.length_zip, pass1_marks, List.length_map, List.length_zip]
  omega

theorem compute_score_lt (g p : Word) (hp : p.length = 5) : compute_score g p < 243 := by
  have h1 : (scoreList g p).length ≤ 5 := by
    have := scoreList_length_le g p
    omega
  have h2 := pack_foldl_lt (scoreList g p) 0
  have h3 : (3 : Nat) ^ (scoreList g p).length ≤ 3 ^ 5 :=
    Nat.pow_le_pow_right (by omega) h1
  show pack_score (scoreList g p) < 243
  rw [pack_score]
  simp only [Nat.one_mul] at h2
  omega

theorem judge_achievable (g : Word) (poss : List Word) (st : DetailScore)
    (hw : ∀ p ∈ poss, p.length = 5) (hne : poss ≠ [])
    (hj : IsJudgeScore g poss all_possible st) :
    ∃ p ∈ poss, compute_score g p = st := by
  rcases List.exists_mem_of_ne_nil poss hne with ⟨p0, hp0⟩
  have hsc0 : compute_score g p0 ∈ all_possible := by
    simp only [all_possible, NUM_POSSIBLE_SCORES, List.mem_range]
    exact compute_score_lt g p0 (hw p0 hp0)
  have h1 : countElimFull g st poss ≤ countElimFull g (compute_score g p0) poss :=
    hj.2.1 _ hsc0
  have h2 : countElimFull g (compute_score g p0) poss ≠ poss.length := by
    intro hcontra
    have hall := (List.countP_eq_length (l := poss)).mp hcontra p0 hp0
    simp at hall
  have h3 : countElimFull g (compute_score g p0) poss ≤ poss.length :=
    List.countP_le_length _
  by_contra hno
  push_neg at hno
  have h4 : countElimFull g st poss = poss.length := by
    rw [countElimFull]
    refine (List.countP_eq_length (l := poss)).mpr ?_
    intro p hp
    simp only [decide_eq_true_eq]
    exact hno p hp
  omega

/-- C5: with more than one remaining possibility, every guess in the list
returned by the absurdle next_guess has a judge score (the feedback
eliminating the fewest possibilities, ties toward the smaller
absurdle_entropy_lost) that is achievable by some remaining possibility and
equals the score of the guess against the target, so filtering by the
judge response keeps the target in the possibility set. -/
theorem absurdle_next_guess_judge_sound (s : AbsSolver) (g : Word)
    (hwords : ∀ p ∈ s.possibilities, p.length = 5)
    (hlen1 : 1 < s.possibilities.length)
    (hlen2 : s.possibilities.length < USIZE_MAX)
    (hg : g ∈ s.next_guess) :
    ∃ st, IsJudgeScore g s.possibilities all_possible st ∧
      (∃ p ∈ s.possibilities, compute_score g p = st) ∧
      compute_score g s.target_word = st ∧
      (s.target_word ∈ s.possibilities →
        s.target_word ∈ s.possibilities.filter fun w =>
          decide (compute_score g w = st)) := by
  rw [AbsSolver.next_guess, if_neg (by omega : ¬s.possibilities.length = 1)] at hg
  have hne : s.possibilities ≠ [] := by
    intro hcontra
    rw [hcontra] at hlen1
    simp at hlen1
  rcases absGuessLoop_sound s.target_word s.possibilities s.history s.hard_mode hlen2
      (s.guessable_list ++ s.solutions_list) 0 [] (Nat.zero_le _)
      (by intro g1 hg1; exact absurd hg1 (List.not_mem_nil g1)) g hg with ⟨st, hj, htg⟩
  refine ⟨st, hj, judge_achievable g s.possibilities st hwords hne hj, htg, ?_⟩
  intro htgt
  exact List.mem_filter.mpr ⟨htgt, by simp [htg]⟩

set_option maxRecDepth 200000 in
/-- Witness for C5: two constant solutions with target aaaaa; the single
returned guess is bbbbb. -/
theorem absurdle_next_guess_judge_sound_witness :
    ∃ st, IsJudgeScore [1, 1, 1, 1, 1]
        (AbsSolver.new [0, 0, 0, 0, 0] [] [[0, 0, 0, 0, 0], [1, 1, 1, 1, 1]]
          false).possibilities all_possible st ∧
      (∃ p ∈ (AbsSolver.new [0, 0, 0, 0, 0] [] [[0, 0, 0, 0, 0], [1, 1, 1, 1, 1]]
          false).possibilities, compute_score [1, 1, 1, 1, 1] p = st) ∧
      compute_score [1, 1, 1, 1, 1]
          (AbsSolver.new [0, 0, 0, 0, 0] [] [[0, 0, 0, 0, 0], [1, 1, 1, 1, 1]]
            false).target_word = st ∧
      ((AbsSolver.new [0, 0, 0, 0, 0] [] [[0, 0, 0, 0, 0], [1, 1, 1, 1, 1]]
            false).target_word
          ∈ (AbsSolver.new [0, 0, 0, 0, 0] [] [[0, 0, 0, 0, 0], [1, 1, 1, 1, 1]]
            false).possibilities →
        (AbsSolver.new [0, 0, 0, 0, 0] [] [[0, 0, 0, 0, 0], [1, 1, 1, 1, 1]]
            false).target_word
          ∈ (AbsSolver.new [0, 0, 0, 0, 0] [] [[0, 0, 0, 0, 0], [1, 1, 1, 1, 1]]
            false).possibilities.filter fun w =>
              decide (compute_score [1, 1, 1, 1, 1] w = st)) :=
  absurdle_next_guess_judge_sound
    (AbsSolver.new [0, 0, 0, 0, 0] [] [[0, 0, 0, 0, 0], [1, 1, 1, 1, 1]] false)
    [1, 1, 1, 1, 1] (by decide) (by decide) (by decide) (by decide)

theorem scoreLoopBFull_spec (guess : Word) (possibilities : List Word)
    (hlen : possibilities.length < USIZE_MAX) :
    ∀ (rest processed : List DetailScore) (m : Nat) (st : Option DetailScore),
      (∀ x ∈ processed ++ rest, x < 243) →
      m = (processed.map fun sc =>
        countElimFull guess sc possibilities).foldr min USIZE_MAX →
      (st = none → processed = []) →
      (∀ s, st = some s → IsJudgeScore guess possibilities processed s ∧
        countElimFull guess s possibilities = m) →
      (scoreLoopBFull guess possibilities rest m st).1
          = ((processed ++ rest).map fun sc =>
            countElimFull guess sc possibilities).foldr min USIZE_MAX ∧
        ((scoreLoopBFull guess possibilities rest m st).2 = none →
          processed ++ rest = []) ∧
        ∀ s, (scoreLoopBFull guess possibilities rest m st).2 = some s →
          IsJudgeScore guess possibilities (processed ++ rest) s ∧
            countElimFull guess s possibilities
              = (scoreLoopBFull guess possibilities rest m st).1 := by
  intro rest
  induction rest with
  | nil =>
    intro processed m st hsc hm hstn hsts
    simp only [scoreLoopBFull, List.append_nil]
    exact ⟨hm, hstn, hsts⟩
  | cons score rest ih =>
    intro processed m st hsc hm hstn hsts
    have hE : countElimFull guess score possibilities ≤ possibilities.length :=
      List.countP_le_length _
    have hscore243 : score < 243 := hsc score (by simp)
    simp only [scoreLoopBFull]
    have hfoldsingle : ((processed ++ [score]).map fun sc =>
        countElimFull guess sc possibilities).foldr min USIZE_MAX
        = min m (countElimFull guess score possibilities) := by
      rw [List.map_append]
      simp only [List.map_cons, List.map_nil]
      rw [foldr_min_append_single, ← hm]
    have hsc2 : ∀ x ∈ (processed ++ [score]) ++ rest, x < 243 := by
      intro x hx
      apply hsc
      simp only [List.append_assoc, List.singleton_append] at hx
      exact hx
    by_cases hem : countElimFull guess score possibilities < m
    · rw [if_pos hem, if_pos hem]
      have hm2 : countElimFull guess score possibilities
          = ((processed ++ [score]).map fun sc =>
            countElimFull guess sc possibilities).foldr min USIZE_MAX := by
        rw [hfoldsingle]
        omega
      have hstn2 : (some score : Option DetailScore) = none →
          processed ++ [score] = [] := by
        intro hcontra
        exact absurd hcontra (by simp)
      have hsts2 : ∀ s, (some score : Option DetailScore) = some s →
          IsJudgeScore guess possibilities (processed ++ [score]) s ∧
            countElimFull guess s possibilities
              = countElimFull guess score possibilities := by
        intro s hs
        rcases Option.some.inj hs with rfl
        refine ⟨⟨by simp, ?_, ?_⟩, rfl⟩
        · intro sc hscm
          rcases List.mem_append.mp hscm with h1 | h1
          · have h2 := foldr_min_le_mem ((processed).map fun sc =>
              countElimFull guess sc possibilities) USIZE_MAX
              (countElimFull guess sc possibilities)
              (List.mem_map_of_mem _ h1)
            omega
          · rcases List.mem_singleton.mp h1 with rfl
            exact le_refl _
        · intro sc hscm htieeq
          rcases List.mem_append.mp hscm with h1 | h1
          · exfalso
            have h2 := foldr_min_le_mem ((processed).map fun sc =>
              countElimFull guess sc possibilities) USIZE_MAX
              (countElimFull guess sc possibilities)
              (List.mem_map_of_mem _ h1)
            omega
          · rcases List.mem_singleton.mp h1 with rfl
            exact Or.inl rfl
      have hres := ih (processed ++ [score])
        (countElimFull guess score possibilities) (some score) hsc2 hm2 hstn2 hsts2
      rw [List.append_assoc, List.singleton_append] at hres
      exact hres
    · rw [if_neg hem, if_neg hem]
      by_cases heq : countElimFull guess score possibilities = m
      · rw [if_pos heq]
        rcases st with _ | s
        · exfalso
          have hp := hstn rfl
          have hmm : m = USIZE_MAX := by rw [hm, hp]; rfl
          omega
        · simp only [tieBreak]
          rcases hsts s rfl with ⟨⟨hmem, hmin, htie⟩, helim⟩
          have hs243 : s < 243 := hsc s (List.mem_append.mpr (Or.inl hmem))
          have hm2 : m = ((processed ++ [score]).map fun sc =>
              countElimFull guess sc possibilities).foldr min USIZE_MAX := by
            rw [hfoldsingle]
            omega
          by_cases hent : absurdle_entropy_lost score < absurdle_entropy_lost s
          · rw [if_pos hent]
            have hstn2 : (some score : Option DetailScore) = none →
                processed ++ [score] = [] := by
              intro hcontra
              exact absurd hcontra (by simp)
            have hsts2 : ∀ s2, (some score : Option DetailScore) = some s2 →
                IsJudgeScore guess possibilities (processed ++ [score]) s2 ∧
                  countElimFull guess s2 possibilities = m := by
              intro s2 hs2
              rcases Option.some.inj hs2 with rfl
              refine ⟨⟨by simp, ?_, ?_⟩, heq⟩
              · intro sc hscm
                rcases List.mem_append.mp hscm with h1 | h1
                · have h2 := foldr_min_le_mem ((processed).map fun sc =>
                    countElimFull guess sc possibilities) USIZE_MAX
                    (countElimFull guess sc possibilities)
                    (List.mem_map_of_mem _ h1)
                  omega
                · rcases List.mem_singleton.mp h1 with rfl
                  exact le_refl _
              · intro sc hscm htieeq
                rcases List.mem_append.mp hscm with h1 | h1
                · rcases htie sc h1 (by omega) with h3 | h3
                  · subst h3
                    exact Or.inr hent
                  · exact Or.inr (lt_trans hent h3)
                · rcases List.mem_singleton.mp h1 with rfl
                  exact Or.inl rfl
            have hres := ih (processed ++ [score]) m (some score) hsc2 hm2
              hstn2 hsts2
            rw [List.append_assoc, List.singleton_append] at hres
            exact hres
          · rw [if_neg hent]
            have hstn2 : (some s : Option DetailScore) = none →
                processed ++ [score] = [] := by
              intro hcontra
              exact absurd hcontra (by simp)
            have hsts2 : ∀ s2, (some s : Option DetailScore) = some s2 →
                IsJudgeScore guess possibilities (processed ++ [score]) s2 ∧
                  countElimFull guess s2 possibilities = m := by
              intro s2 hs2
              rcases Option.some.inj hs2 with rfl
              refine ⟨⟨List.mem_append.mpr (Or.inl hmem), ?_, ?_⟩, helim⟩
              · intro sc hscm
                rcases List.mem_append.mp hscm with h1 | h1
                · exact hmin sc h1
                · rcases List.mem_singleton.mp h1 with rfl
                  omega
              · intro sc hscm htieeq
                rcases List.mem_append.mp hscm with h1 | h1
                · exact htie sc h1 htieeq
                · rcases List.mem_singleton.mp h1 with rfl
                  by_cases hee : absurdle_entropy_lost s = absurdle_entropy_lost sc
                  · exact Or.inl (ent_inj s sc hs243 hscore243 hee)
                  · refine Or.inr ?_
                    omega
            have hres := ih (processed ++ [score]) m (some s) hsc2 hm2 hstn2 hsts2
            rw [List.append_assoc, List.singleton_append] at hres
            exact hres
      · rw [if_neg heq]
        have hm2 : m = ((processed ++ [score]).map fun sc =>
            countElimFull guess sc possibilities).foldr min USIZE_MAX := by
          rw [hfoldsingle]
          omega
        have hstn2 : st = none → processed ++ [score] = [] := by
          intro hn
          exfalso
          have hp := hstn hn
          have hmm : m = USIZE_MAX := by rw [hm, hp]; rfl
          omega
        have hsts2 : ∀ s, st = some s →
            IsJudgeScore guess possibilities (processed ++ [score]) s ∧
              countElimFull guess s possibilities = m := by
          intro s hs
          rcases hsts s hs with ⟨⟨hmem, hmin, htie⟩, helim⟩
          refine ⟨⟨List.mem_append.mpr (Or.inl hmem), ?_, ?_⟩, helim⟩
          · intro sc hscm
            rcases List.mem_append.mp hscm with h1 | h1
            · exact hmin sc h1
            · rcases List.mem_singleton.mp h1 with rfl
              omega
          · intro sc hscm htieeq
            rcases List.mem_append.mp hscm with h1 | h1
            · exact htie sc h1 htieeq
            · rcases List.mem_singleton.mp h1 with rfl
              exfalso
              omega
        have hres := ih (processed ++ [score]) m st hsc2 hm2 hstn2 hsts2
        rw [List.append_assoc, List.singleton_append] at hres
        exact hres

theorem judge_unique (guess : Word) (possibilities : List Word)
    (scores : List DetailScore) (s1 s2 : DetailScore)
    (h1 : IsJudgeScore guess possibilities scores s1)
    (h2 : IsJudgeScore guess possibilities scores s2) : s1 = s2 := by
  rcases h1 with ⟨hm1, hmin1, htie1⟩
  rcases h2 with ⟨hm2, hmin2, htie2⟩
  have he : countElimFull guess s2 possibilities
      = countElimFull guess s1 possibilities :=
    le_antisymm (hmin2 s1 hm1) (hmin1 s2 hm2)
  rcases htie1 s2 hm2 he with h | h
  · exact h
  · rcases htie2 s1 hm1 he.symm with h3 | h3
    · exact h3.symm
    · omega

theorem absGuessLoop_eq_full (target : Word) (possibilities : List Word)
    (history : List (Word × DetailScore)) (hard_mode : Bool)
    (hlen : possibilities.length < USIZE_MAX) :
    ∀ (gl : List Word) (best : Nat) (acc : List Word),
      best ≤ USIZE_MAX →
      absGuessLoop target possibilities history hard_mode gl best acc
        = absGuessLoopFull target possibilities history hard_mode gl best acc := by
  intro gl
  induction gl with
  | nil =>
    intro best acc hbest
    rfl
  | cons g0 rest ih =>
    intro best acc hbest
    have hsc : ∀ x ∈ ([] : List DetailScore) ++ all_possible, x < 243 := by
      intro x hx
      simp only [List.nil_append] at hx
      simpa [all_possible, NUM_POSSIBLE_SCORES, List.mem_range] using hx
    have hspecF := scoreLoopBFull_spec g0 possibilities hlen all_possible []
      USIZE_MAX none hsc rfl (fun _ => rfl)
      (by intro s hs; exact absurd hs (by simp))
    have hspecB := scoreLoopB_spec g0 possibilities best hlen all_possible []
      USIZE_MAX none hsc rfl (by omega) (fun _ => rfl)
      (by intro s hs; exact absurd hs (by simp))
    rcases hF : scoreLoopBFull g0 possibilities all_possible USIZE_MAX none
      with ⟨minF, stF⟩
    simp only [hF, List.nil_append] at hspecF
    rcases hspecF with ⟨hF1, hF2, hF3⟩
    simp only [absGuessLoop, absGuessLoopFull]
    by_cases ht : g0 = target
    · rw [if_pos ht, if_pos ht]
      exact ih best acc hbest
    · rw [if_neg ht, if_neg ht]
      by_cases hh : hard_mode = true ∧ ¬hardOk history g0 = true
      · rw [if_pos hh, if_pos hh]
        exact ih best acc hbest
      · rw [if_neg hh, if_neg hh]
        rcases stF with _ | sF
        · exfalso
          have h0 : (0 : Nat) ∈ all_possible := by
            simp [all_possible, NUM_POSSIBLE_SCORES]
          rw [hF2 rfl] at h0
          exact List.not_mem_nil _ h0
        · have hFj := hF3 sF rfl
          rcases hB : scoreLoopB g0 possibilities best all_possible USIZE_MAX none
            with _ | ⟨minB, stB⟩
          · simp only [hB] at hspecB
            simp only [List.nil_append] at hspecB
            have hlt : minF < best := by
              rw [hF1]
              exact hspecB
            have hstep : absStepFull target g0 best acc (minF, some sF)
                = (best, acc) := by
              simp only [absStepFull]
              rw [if_pos hlt]
            simp only [hB, hF, hstep]
            exact ih best acc hbest
          · simp only [hB] at hspecB
            simp only [List.nil_append] at hspecB
            rcases hspecB with ⟨hB1, hB2, hB3, hB4⟩
            rcases stB with _ | sB
            · exfalso
              have h0 : (0 : Nat) ∈ all_possible := by
                simp [all_possible, NUM_POSSIBLE_SCORES]
              rw [hB3 rfl] at h0
              exact List.not_mem_nil _ h0
            · have hBF : minB = minF := by
                rw [hB1, hF1]
              have hsBF : sB = sF :=
                judge_unique g0 possibilities all_possible sB sF
                  (hB4 sB rfl).1 hFj.1
              rw [← hBF, ← hsBF] at hF
              by_cases hcs : compute_score g0 target ≠ sB
              · have hstep : absStepFull target g0 best acc (minB, some sB)
                    = (best, acc) := by
                  simp only [absStepFull]
                  rw [if_neg hB2, if_pos hcs]
                simp only [hB, hF, hstep]
                rw [if_pos hcs]
                exact ih best acc hbest
              · have hstep : absStepFull target g0 best acc (minB, some sB)
                    = (if best < minB then minB else best,
                      if minB = (if best < minB then minB else best)
                        then acc ++ [g0] else acc) := by
                  simp only [absStepFull]
                  rw [if_neg hB2, if_neg hcs]
                simp only [hB, hF, hstep]
                rw [if_neg hcs]
                have hminB : minB ≤ USIZE_MAX := by
                  rw [hB1]
                  exact foldr_min_le_init _ _
                have hb2 : (if best < minB then minB else best) ≤ USIZE_MAX := by
                  by_cases h : best < minB
                  · rw [if_pos h]
                    exact hminB
                  · rw [if_neg h]
                    exact hbest
                exact ih _ _ hb2

theorem abs_next_guess_eq_full (s : AbsSolver)
    (hlen : s.possibilities.length < USIZE_MAX) :
    s.next_guess = s.next_guess_full := by
  rw [AbsSolver.next_guess, AbsSolver.next_guess_full]
  by_cases h : s.possibilities.length = 1
  · rw [if_pos h, if_pos h]
  · rw [if_neg h, if_neg h,
      absGuessLoop_eq_full s.target_word s.possibilities s.history s.hard_mode hlen
        (s.guessable_list ++ s.solutions_list) 0 [] (Nat.zero_le _)]

/-- C7: the early-termination pruning changes no result: the groupsize
next_guess with its two breaks equals an unpruned reference that fully
counts every (score, possibility) pair for every allowable guess, and the
absurdle next_guess with its two breaks likewise equals its unpruned
reference (the possibility list being shorter than usize::MAX, as any
in-memory list is). -/
theorem pruning_preserves_selection :
    (∀ s : Solver, s.next_guess_groupsize = s.next_guess_groupsize_full) ∧
    ∀ s : AbsSolver, s.possibilities.length < USIZE_MAX →
      s.next_guess = s.next_guess_full :=
  ⟨fun s => next_guess_groupsize_eq_full s, fun s h => abs_next_guess_eq_full s h⟩

/-- Witness for C7: a concrete two-word state for each solver. -/
theorem pruning_preserves_selection_witness :
    (Solver.new [] [[0, 0, 0, 0, 0], [1, 1, 1, 1, 1]] false
        Strategy.GROUPSIZE).next_guess_groupsize
      = (Solver.new [] [[0, 0, 0, 0, 0], [1, 1, 1, 1, 1]] false
        Strategy.GROUPSIZE).next_guess_groupsize_full ∧
    (AbsSolver.new [2, 2, 2, 2, 2] [] [[2, 2, 2, 2, 2], [1, 1, 1, 1, 1]]
        false).possibilities.length < USIZE_MAX ∧
    (AbsSolver.new [2, 2, 2, 2, 2] [] [[2, 2, 2, 2, 2], [1, 1, 1, 1, 1]]
        false).next_guess
      = (AbsSolver.new [2, 2, 2, 2, 2] [] [[2, 2, 2, 2, 2], [1, 1, 1, 1, 1]]
        false).next_guess_full :=
  ⟨pruning_preserves_selection.1 _, by decide,
    pruning_preserves_selection.2 _ (by decide)⟩

theorem packAux_split (ms : List LetterScore) : ∀ acc : Nat,
    ms.foldl (fun num l => num * 3 + l.toNat) acc
      = acc * 3 ^ ms.length + ms.foldl (fun num l => num * 3 + l.toNat) 0 := by
  induction ms with
  | nil =>
    intro acc
    simp
  | cons m rest ih =>
    intro acc
    simp only [List.foldl_cons, List.length_cons]
    rw [ih (acc * 3 + LetterScore.toNat m), ih (0 * 3 + LetterScore.toNat m)]
    ring

theorem pack_score_lt (ms : List LetterScore) : pack_score ms < 3 ^ ms.length := by
  have h := pack_foldl_lt ms 0
  show ms.foldl (fun num l => num * 3 + l.toNat) 0 < 3 ^ ms.length
  omega

theorem pack_score_max (ms : List LetterScore) :
    pack_score ms = 3 ^ ms.length - 1 → ∀ l ∈ ms, l = LetterScore.Correct := by
  induction ms with
  | nil =>
    intro _ l hl
    exact absurd hl (List.not_mem_nil l)
  | cons m rest ih =>
    intro h l hl
    have hsplit : pack_score (m :: rest)
        = LetterScore.toNat m * 3 ^ rest.length + pack_score rest := by
      show rest.foldl (fun num l => num * 3 + l.toNat) (0 * 3 + LetterScore.toNat m)
        = _
      rw [packAux_split rest (0 * 3 + LetterScore.toNat m)]
      show (0 * 3 + LetterScore.toNat m) * 3 ^ rest.length + pack_score rest = _
      ring
    have hlt : pack_score rest < 3 ^ rest.length := pack_score_lt rest
    have hp : 1 ≤ 3 ^ rest.length := Nat.one_le_pow _ _ (by omega)
    have h3 : (3 : Nat) ^ (m :: rest).length = 3 * 3 ^ rest.length := by
      simp only [List.length_cons]
      rw [pow_succ]
      ring
    rw [hsplit, h3] at h
    rcases List.mem_cons.mp hl with rfl | hl2
    · cases l
      case Correct => rfl
      case Absent =>
        exfalso
        simp only [LetterScore.toNat] at h
        omega
      case Present =>
        exfalso
        simp only [LetterScore.toNat] at h
        omega
    · refine ih ?_ l hl2
      cases m <;> simp only [LetterScore.toNat] at h <;> omega

theorem pass2_output_correct : ∀ (l : List (LetterScore × Nat)) (cnt : Nat → Nat),
    (∀ x ∈ pass2 l cnt, x = LetterScore.Correct) →
    ∀ p ∈ l, p.1 = LetterScore.Correct := by
  intro l
  induction l with
  | nil =>
    intro cnt _ p hp
    exact absurd hp (List.not_mem_nil p)
  | cons q rest ih =>
    intro cnt hall p hp
    by_cases hc : q.1 ≠ LetterScore.Correct ∧ 0 < cnt q.2
    · exfalso
      have hPC : LetterScore.Present = LetterScore.Correct := by
        apply hall
        simp only [pass2]
        rw [if_pos hc]
        simp
      exact absurd hPC (by decide)
    · have hall2 : ∀ x ∈ pass2 rest cnt, x = LetterScore.Correct := by
        intro x hx
        apply hall
        simp only [pass2]
        rw [if_neg hc]
        simp [hx]
      rcases List.mem_cons.mp hp with rfl | hp2
      · apply hall
        simp only [pass2]
        rw [if_neg hc]
        simp
      · exact ih cnt hall2 p hp2

theorem zip_fst_eq_snd : ∀ (l1 l2 : List Nat), l1.length = l2.length →
    (∀ p ∈ l1.zip l2, p.1 = p.2) → l1 = l2 := by
  intro l1
  induction l1 with
  | nil =>
    intro l2 hlen _
    cases l2 with
    | nil => rfl
    | cons b l2 => simp at hlen
  | cons a l1 ih =>
    intro l2 hlen hall
    cases l2 with
    | nil => simp at hlen
    | cons b l2 =>
      have h1 : a = b := hall (a, b) (by simp [List.zip_cons_cons])
      have h2 : l1 = l2 := ih l2 (by simpa using hlen)
        (fun p hp => hall p (by simp [List.zip_cons_cons, hp]))
      rw [h1, h2]

theorem zip_self_fst : ∀ (l : List Nat), ∀ p ∈ l.zip l, p.1 = p.2 := by
  intro l
  induction l with
  | nil =>
    intro p hp
    exact absurd hp (List.not_mem_nil p)
  | cons a l ih =>
    intro p hp
    rw [List.zip_cons_cons] at hp
    rcases List.mem_cons.mp hp with rfl | hp2
    · rfl
    · exact ih p hp2

theorem map_all_correct : ∀ (z : List (Nat × Nat)), (∀ p ∈ z, p.1 = p.2) →
    z.map (fun p => if p.1 = p.2 then LetterScore.Correct else LetterScore.Absent)
      = List.replicate z.length LetterScore.Correct := by
  intro z
  induction z with
  | nil =>
    intro _
    rfl
  | cons p rest ih =>
    intro hall
    simp only [List.map_cons, List.length_cons, List.replicate_succ]
    rw [if_pos (hall p (by simp)), ih (fun q hq => hall q (by simp [hq]))]

theorem pass2_replicate : ∀ (l : List Nat) (cnt : Nat → Nat),
    pass2 ((List.replicate l.length LetterScore.Correct).zip l) cnt
      = List.replicate l.length LetterScore.Correct := by
  intro l
  induction l with
  | nil =>
    intro cnt
    rfl
  | cons a l ih =>
    intro cnt
    simp only [List.length_cons, List.replicate_succ, List.zip_cons_cons, pass2]
    rw [if_neg (by simp)]
    show LetterScore.Correct
        :: pass2 ((List.replicate l.length LetterScore.Correct).zip l) cnt
      = LetterScore.Correct :: List.replicate l.length LetterScore.Correct
    rw [ih]

theorem scoreList_self (g : Word) :
    scoreList g g = List.replicate g.length LetterScore.Correct := by
  show pass2 ((pass1 (g.zip g) (countsOf g)).1.zip g) (pass1 (g.zip g) (countsOf g)).2
    = List.replicate g.length LetterScore.Correct
  rw [pass1_marks, map_all_correct (g.zip g) (zip_self_fst g)]
  have hzl : (g.zip g).length = g.length := by simp
  rw [hzl]
  exact pass2_replicate g _

theorem compute_score_win_iff (g w : Word) (hg : g.length = 5) (hw : w.length = 5) :
    compute_score g w = 242 ↔ w = g := by
  constructor
  · intro h
    have hlen : (scoreList g w).length = 5 := by
      show (pass2 ((pass1 (g.zip w) (countsOf w)).1.zip g)
        (pass1 (g.zip w) (countsOf w)).2).length = 5
      rw [pass2_length, List.length_zip, pass1_marks, List.length_map,
        List.length_zip, hg, hw]
      decide
    have h3 : (3 : Nat) ^ (scoreList g w).length - 1 = 242 := by
      rw [hlen]
      norm_num
    have hall : ∀ x ∈ scoreList g w, x = LetterScore.Correct := by
      apply pack_score_max
      rw [h3]
      exact h
    have hallP : ∀ x ∈ pass2 ((pass1 (g.zip w) (countsOf w)).1.zip g)
        (pass1 (g.zip w) (countsOf w)).2, x = LetterScore.Correct := hall
    have hp2 := pass2_output_correct ((pass1 (g.zip w) (countsOf w)).1.zip g)
      (pass1 (g.zip w) (countsOf w)).2 hallP
    have hmlen : (pass1 (g.zip w) (countsOf w)).1.length = 5 := by
      rw [pass1_marks, List.length_map, List.length_zip, hg, hw]
      decide
    have hmAll : ∀ mk ∈ (pass1 (g.zip w) (countsOf w)).1,
        mk = LetterScore.Correct := by
      intro mk hmk
      have hmm : mk ∈ ((pass1 (g.zip w) (countsOf w)).1.zip g).map Prod.fst := by
        rw [List.map_fst_zip _ g (by rw [hmlen, hg])]
        exact hmk
      rcases List.mem_map.mp hmm with ⟨p, hp, hpe⟩
      rw [← hpe]
      exact hp2 p hp
    have hpair : ∀ p ∈ g.zip w, p.1 = p.2 := by
      intro p hp
      have hfm : (if p.1 = p.2 then LetterScore.Correct else LetterScore.Absent)
          ∈ (pass1 (g.zip w) (countsOf w)).1 := by
        rw [pass1_marks]
        exact List.mem_map_of_mem _ hp
      have hC := hmAll _ hfm
      by_cases hq : p.1 = p.2
      · exact hq
      · rw [if_neg hq] at hC
        exact absurd hC (by decide)
    have hgw : g = w := zip_fst_eq_snd g w (by omega) hpair
    exact hgw.symm
  · intro h
    rw [h]
    show pack_score (scoreList g g) = 242
    rw [scoreList_self, hg]
    decide

theorem nodup_filter_eq : ∀ (l : List Word) (g : Word), l.Nodup →
    (l.filter fun w => decide (w = g)) = if g ∈ l then [g] else [] := by
  intro l g
  induction l with
  | nil =>
    intro _
    simp
  | cons a l ih =>
    intro hnd
    rcases List.nodup_cons.mp hnd with ⟨ha, hnd2⟩
    rw [List.filter_cons]
    by_cases hag : a = g
    · subst hag
      rw [if_pos (by simp), if_pos (List.mem_cons_self a l)]
      have hnil : (l.filter fun w => decide (w = a)) = [] := by
        rw [List.filter_eq_nil_iff]
        intro w hw hdec
        rw [decide_eq_true_eq] at hdec
        exact ha (hdec ▸ hw)
      rw [hnil]
    · rw [if_neg (by simp [hag])]
      rw [ih hnd2]
      by_cases hgl : g ∈ l
      · rw [if_pos hgl, if_pos (List.mem_cons_of_mem a hgl)]
      · rw [if_neg hgl, if_neg (by
          intro hmem
          rcases List.mem_cons.mp hmem with h1 | h1
          · exact hag h1.symm
          · exact hgl h1)]

theorem respond_win_singleton (s : Solver) (g : Word) (s2 : Solver)
    (hg : g.length = 5) (hws : ∀ p ∈ s.possibilities, p.length = 5)
    (hnd : s.possibilities.Nodup)
    (hresp : s.respond_to_score g 242 = some s2) :
    s2.possibilities = [g] := by
  have hfe : (s.possibilities.filter fun possibility =>
      decide (compute_score g possibility = 242))
      = s.possibilities.filter fun possibility => decide (possibility = g) := by
    apply List.filter_congr
    intro w hw
    rw [decide_eq_decide]
    exact compute_score_win_iff g w hg (hws w hw)
  rw [Solver.respond_to_score] at hresp
  simp only [hfe, nodup_filter_eq s.possibilities g hnd] at hresp
  by_cases hmem : g ∈ s.possibilities
  · rw [if_pos hmem] at hresp
    rw [if_neg (show ¬([g] : List Word).length = 0 by simp)] at hresp
    have h2 := Option.some.inj hresp
    rw [← h2]
  · rw [if_neg hmem] at hresp
    rw [if_pos (show ([] : List Word).length = 0 from rfl)] at hresp
    exact absurd hresp (by simp)

theorem zip_set_both {α β : Type} : ∀ (l1 : List α) (l2 : List β) (i : Nat)
    (a : α) (b : β),
    (l1.set i a).zip (l2.set i b) = (l1.zip l2).set i (a, b) := by
  intro l1
  induction l1 with
  | nil =>
    intro l2 i a b
    simp
  | cons x l1 ih =>
    intro l2 i a b
    cases l2 with
    | nil => simp
    | cons y l2 =>
      cases i with
      | zero => rfl
      | succ n =>
        show (x :: l1.set n a).zip (y :: l2.set n b)
          = ((x, y) :: l1.zip l2).set (n + 1) (a, b)
        rw [List.zip_cons_cons]
        show (x, y) :: (l1.set n a).zip (l2.set n b)
          = (x, y) :: (l1.zip l2).set n (a, b)
        rw [ih l2 n a b]

theorem set_of_getElem? {α : Type} : ∀ (l : List α) (i : Nat) (a : α),
    l[i]? = some a → l.set i a = l := by
  intro l
  induction l with
  | nil =>
    intro i a h
    simp at h
  | cons x l ih =>
    intro i a h
    cases i with
    | zero =>
      simp only [List.getElem?_cons_zero, Option.some.injEq] at h
      rw [← h]
      rfl
    | succ n =>
      simp only [List.getElem?_cons_succ] at h
      show x :: l.set n a = x :: l
      rw [ih n a h]

theorem filter_len_eq_filterMap_done : ∀ (sol : List Solver) (don : List Bool),
    (∀ p ∈ sol.zip don, p.2 = true → p.1.possibilities.length = 1) →
    (∀ p ∈ sol.zip don, p.2 = false → p.1.possibilities.length ≠ 1) →
    don.length = sol.length →
    (sol.filter fun solver => decide (solver.possibilities.length ≠ 1))
      = (sol.zip don).filterMap fun p => if p.2 = true then none else some p.1 := by
  intro sol
  induction sol with
  | nil =>
    intro don _ _ _
    simp
  | cons s sol ih =>
    intro don hdone hfree hlen
    cases don with
    | nil => simp at hlen
    | cons d don =>
      rw [List.filter_cons, List.zip_cons_cons, List.filterMap_cons]
      have ht := ih don
        (fun p hp hq => hdone p
          (by rw [List.zip_cons_cons]; exact List.mem_cons_of_mem _ hp) hq)
        (fun p hp hq => hfree p
          (by rw [List.zip_cons_cons]; exact List.mem_cons_of_mem _ hp) hq)
        (by simpa using hlen)
      cases d with
      | true =>
        have h1 : s.possibilities.length = 1 :=
          hdone (s, true)
            (by rw [List.zip_cons_cons]; exact List.mem_cons_self _ _) rfl
        rw [if_neg (by simp [h1])]
        simp only [if_pos rfl]
        exact ht
      | false =>
        have h1 : s.possibilities.length ≠ 1 :=
          hfree (s, false)
            (by rw [List.zip_cons_cons]; exact List.mem_cons_self _ _) rfl
        rw [if_pos (by simpa using h1)]
        simp only [if_neg (by simp : ¬((s, false) : Solver × Bool).2 = true)]
        rw [ht]

theorem multi_respond_preserves_doneinv (m m2 : MultiSolver) (index : Nat)
    (g : Word) (score : DetailScore)
    (hg : g.length = 5)
    (hsv : ∀ sv, m.solvers[index]? = some sv →
      (∀ p ∈ sv.possibilities, p.length = 5) ∧ sv.possibilities.Nodup)
    (hdone : m.done[index]? = some false)
    (hinv : DoneInv m)
    (hresp : m.respond_to_score index g score = some m2) :
    DoneInv m2 := by
  rw [MultiSolver.respond_to_score] at hresp
  rcases hr : m.responded[index]? with _ | r
  · simp only [hr] at hresp
    exact absurd hresp (by simp)
  · rcases hs : m.solvers[index]? with _ | sv
    · simp only [hr, hs] at hresp
      exact absurd hresp (by simp)
    · simp only [hr, hs] at hresp
      by_cases hrT : r = true
      · rw [if_pos hrT] at hresp
        exact absurd hresp (by simp)
      · rw [if_neg hrT] at hresp
        rcases hs2 : sv.respond_to_score g score with _ | sv2
        · simp only [hs2] at hresp
          exact absurd hresp (by simp)
        · simp only [hs2] at hresp
          have hm2 := Option.some.inj hresp
          subst hm2
          show ∀ p ∈ (m.solvers.set index sv2).zip
              (if is_win score then m.done.set index true else m.done),
            p.2 = true → p.1.possibilities.length = 1
          by_cases hw : is_win score = true
          · rw [if_pos hw, zip_set_both]
            intro p hp htrue
            rcases List.mem_or_eq_of_mem_set hp with hmem | rfl
            · exact hinv p hmem htrue
            · have h242 : score = 242 := by
                rw [is_win] at hw
                simpa [NUM_POSSIBLE_SCORES] using hw
              subst h242
              have hone := respond_win_singleton sv g sv2 hg (hsv sv hs).1
                (hsv sv hs).2 hs2
              show sv2.possibilities.length = 1
              rw [hone]
              rfl
          · rw [if_neg hw, ← set_of_getElem? m.done index false hdone,
              zip_set_both]
            intro p hp htrue
            rcases List.mem_or_eq_of_mem_set hp with hmem | rfl
            · exact hinv p hmem htrue
            · exact absurd htrue (by simp)

/-- C10: the all-Correct feedback for a 5-letter guess is produced exactly
by the guess itself, so a respond_to_score call with a winning score that
returns normally leaves exactly the one-element possibility list [guess];
in the multi-board solver the invariant that every done board holds
exactly one possibility is preserved by respond_to_score, and when the
single-possibility shortcut has not fired, the joint evaluation's filter
that skips possibility-count-1 boards skips exactly the done boards. -/
theorem winning_feedback_and_done_filter :
    (∀ g w : Word, g.length = 5 → w.length = 5 →
      (is_win (compute_score g w) = true ↔ w = g)) ∧
    (∀ (s : Solver) (g : Word) (score : DetailScore) (s2 : Solver),
      g.length = 5 → (∀ p ∈ s.possibilities, p.length = 5) →
      s.possibilities.Nodup → is_win score = true →
      s.respond_to_score g score = some s2 → s2.possibilities = [g]) ∧
    (∀ (m m2 : MultiSolver) (index : Nat) (g : Word) (score : DetailScore),
      g.length = 5 →
      (∀ sv, m.solvers[index]? = some sv →
        (∀ p ∈ sv.possibilities, p.length = 5) ∧ sv.possibilities.Nodup) →
      m.done[index]? = some false → DoneInv m →
      m.respond_to_score index g score = some m2 → DoneInv m2) ∧
    (∀ m : MultiSolver, m.done.length = m.solvers.length → DoneInv m →
      m.shortcutFired = false →
      m.evalBoards = (m.solvers.zip m.done).filterMap
        fun p => if p.2 = true then none else some p.1) := by
  refine ⟨?_, ?_, ?_, ?_⟩
  · intro g w hg hw
    rw [is_win]
    rw [show NUM_POSSIBLE_SCORES - 1 = 242 from rfl]
    rw [beq_iff_eq]
    exact compute_score_win_iff g w hg hw
  · intro s g score s2 hg hws hnd hwin hresp
    have h242 : score = 242 := by
      rw [is_win] at hwin
      simpa [NUM_POSSIBLE_SCORES] using hwin
    subst h242
    exact respond_win_singleton s g s2 hg hws hnd hresp
  · intro m m2 index g score hg hsv hdone hinv hresp
    exact multi_respond_preserves_doneinv m m2 index g score hg hsv hdone hinv hresp
  · intro m hlen hinv hsf
    rw [MultiSolver.evalBoards]
    refine filter_len_eq_filterMap_done m.solvers m.done hinv ?_ hlen
    intro p hp hpf hlen1
    have hany : (m.solvers.zip m.done).any
        (fun p => !p.2 && p.1.possibilities.length == 1) = true :=
      List.any_eq_true.mpr ⟨p, hp, by simp [hpf, hlen1]⟩
    rw [MultiSolver.shortcutFired] at hsf
    rw [hany] at hsf
    exact Bool.noConfusion hsf

/-- Witness for C10: a two-word catalog, winning guess bbbbb, and the
one-board multi solver built from it. -/
theorem winning_feedback_and_done_filter_witness :
    (is_win (compute_score [0, 1, 2, 3, 4] [0, 1, 2, 3, 3]) = true
      ↔ ([0, 1, 2, 3, 3] : Word) = [0, 1, 2, 3, 4]) ∧
    exWinSolver.possibilities = [[1, 1, 1, 1, 1]] ∧
    DoneInv exWinMulti ∧
    exWinMulti.evalBoards = (exWinMulti.solvers.zip exWinMulti.done).filterMap
      fun p => if p.2 = true then none else some p.1 :=
  ⟨winning_feedback_and_done_filter.1 [0, 1, 2, 3, 4] [0, 1, 2, 3, 3]
      (by decide) (by decide),
    winning_feedback_and_done_filter.2.1
      (Solver.new [] [[0, 0, 0, 0, 0], [1, 1, 1, 1, 1]] false Strategy.GROUPSIZE)
      [1, 1, 1, 1, 1] 242 exWinSolver
      (by decide) (by decide) (by decide) (by decide) (by decide),
    winning_feedback_and_done_filter.2.2.1
      (MultiSolver.new 1 [] [[0, 0, 0, 0, 0], [1, 1, 1, 1, 1]] Strategy.GROUPSIZE)
      exWinMulti 0 [1, 1, 1, 1, 1] 242 (by decide)
      (by
        intro sv hsv
        have h1 : (MultiSolver.new 1 [] [[0, 0, 0, 0, 0], [1, 1, 1, 1, 1]]
            Strategy.GROUPSIZE).solvers[0]?
            = some (Solver.new [] [[0, 0, 0, 0, 0], [1, 1, 1, 1, 1]] false
              Strategy.GROUPSIZE) := rfl
        rcases Option.some.inj (h1.symm.trans hsv) with rfl
        exact ⟨by decide, by decide⟩)
      rfl (by unfold DoneInv; decide) (by decide),
    winning_feedback_and_done_filter.2.2.2 exWinMulti
      (by decide) (by unfold DoneInv; decide) (by decide)⟩
